import Mathlib

/-!
Verification of the inverted-index pipeline (indexer.cpp, merger.cpp,
query.cpp and the two reverse tools) against its specification.

Shallow embedding conventions:
* C++ `int` values are modelled as `Int`; where two-complement wraparound
  of 32-bit machine integers matters, the bit pattern is kept as a `Nat`
  and reduced `% 2 ^ 32`, with `toInt32` giving the signed reading.
* Bytes are `Nat` values (< 256 for all bytes the programs produce).
* Code paths that are undefined behaviour in C++ (out-of-range vector
  indexing, out-of-range slices) are modelled by returning `none`.
* Loops whose termination is not structural take an explicit fuel
  argument; the wrapper supplies fuel that provably covers every
  iteration the C++ loop can perform.
-/

namespace WSE

/-- Signed reading of a 32-bit pattern: the value a C++ `int` holds after
two-complement truncation of `n`. -/
def toInt32 (n : Nat) : Int :=
  if n % 2 ^ 32 < 2 ^ 31 then ((n % 2 ^ 32 : Nat) : Int)
  else ((n % 2 ^ 32 : Nat) : Int) - 2 ^ 32

/-- The `int` value received by a C++ function when a caller passes the
mathematical value `x` of an unsigned 32-bit quantity. -/
def intOfUInt32 (x : Nat) : Int := toInt32 x

/-- Fuel-driven form of the `varbyteEncode` loop; the fuel only serves
termination and never runs out when it is at least the argument. -/
def encodeNatGo : Nat → Nat → List Nat
  | 0, n => [n]
  | fuel + 1, n =>
    if n < 128 then [n] else (n % 128 + 128) :: encodeNatGo fuel (n / 128)

/-- The loop of `varbyteEncode` (src/src/indexer.cpp, lines 49-57) for a
nonnegative argument: little-endian base 128, high bit set on every
non-terminal byte. -/
def encodeNat (n : Nat) : List Nat := encodeNatGo n n

/-- `varbyteEncode(int number)` from src/src/indexer.cpp lines 49-57.
The loop `while (number >= 128)` never runs for a negative argument, so a
negative `int` is emitted as the single byte `number & 0x7F`, which is
`number % 128` in the euclidean sense. -/
def varbyteEncode (number : Int) : List Nat :=
  if 128 ≤ number then encodeNat number.toNat
  else [(number % 128).toNat]

/-- The accumulation loop of `byteToInt` (src/src/query.cpp lines 145-160):
`value |= (bytes[i] & 0x7F) << shift; shift += 7;` stopping at the first
byte with the high bit clear.  The bit pattern is tracked as a `Nat`;
bitwise or and truncation to 32 bits commute, so reducing once at the end
(in `byteToInt`) matches the per-step machine truncation. -/
def byteToIntAux : List Nat → Nat → Nat → Nat
  | [], _, value => value
  | b :: rest, shift, value =>
    let value2 := value ||| ((b &&& 127) <<< shift)
    if b &&& 128 = 0 then value2 else byteToIntAux rest (shift + 7) value2

/-- `byteToInt` from src/src/query.cpp lines 145-160: little-endian varbyte
decode of one codeword, returned as a C++ `int`. -/
def byteToInt (bytes : List Nat) : Int := toInt32 (byteToIntAux bytes 0 0)

/-- The loop body state of `bytesToIntVec`: remaining bytes and the current
codeword buffer. On a byte with the high bit clear the buffered codeword is
decoded and the buffer cleared; a nonempty buffer left at the end is decoded
as well (src/src/query.cpp lines 177-180). -/
def bytesToIntVecGo : List Nat → List Nat → List Int
  | [], buffer => if buffer.isEmpty then [] else [byteToInt buffer]
  | b :: rest, buffer =>
    if b &&& 128 = 0 then byteToInt (buffer ++ [b]) :: bytesToIntVecGo rest []
    else bytesToIntVecGo rest (buffer ++ [b])

/-- `bytesToIntVec` from src/src/query.cpp lines 162-183. -/
def bytesToIntVec (bytes : List Nat) : List Int := bytesToIntVecGo bytes []

/-- The inner `while (true)` varbyte read of
`PostingFileReader::readNextTerm` (src/src/merger.cpp lines 82-106):
`docID = (docID << 7) | (byte & 0x7F)` — a big-endian accumulation.
Returns the decoded value and the remaining bytes, or `none` when the
stream ends before a terminator byte (the code throws on EOF). -/
def readVarbyteBE : List Nat → Nat → Option (Int × List Nat)
  | [], _ => none
  | b :: rest, acc =>
    let acc2 := ((acc <<< 7) ||| (b &&& 127)) % 2 ^ 32
    if b &&& 128 = 0 then some (toInt32 acc2, rest) else readVarbyteBE rest acc2

/-- The posting loop of `PostingFileReader::readNextTerm`
(src/src/merger.cpp lines 79-106): read `n` postings, each a varbyte docID
followed by a varbyte termFreq; `none` when EOF interrupts a codeword. -/
def readPostingsBE : Nat → List Nat → Option (List (Int × Int) × List Nat)
  | 0, bytes => some ([], bytes)
  | n + 1, bytes =>
    match readVarbyteBE bytes 0 with
    | none => none
    | some (docID, rest) =>
      match readVarbyteBE rest 0 with
      | none => none
      | some (termFreq, rest2) =>
        match readPostingsBE n rest2 with
        | none => none
        | some (ps, rest3) => some ((docID, termFreq) :: ps, rest3)

/-! ### Tokenizer (src/src/indexer.cpp lines 22-46) -/

/-- `std::isalnum` in the default C locale on a byte. -/
def isAlnum (c : Nat) : Bool :=
  (48 ≤ c && c ≤ 57) || (65 ≤ c && c ≤ 90) || (97 ≤ c && c ≤ 122)

/-- `std::tolower` in the default C locale on a byte. -/
def toLowerByte (c : Nat) : Nat := if 65 ≤ c && c ≤ 90 then c + 32 else c

/-- The `isASCII` lambda of `tokenize`: no byte above 127. -/
def isASCIItoken (token : List Nat) : Bool := token.all (· ≤ 127)

/-- The character loop of `tokenize` (src/src/indexer.cpp lines 32-44),
with the current token as accumulator.  On a non-alphanumeric byte a
nonempty token is emitted when it is ASCII and not a stopword; the final
token is handled the same way after the loop. -/
def tokenizeGo (stop : List (List Nat)) : List Nat → List Nat → List (List Nat)
  | [], token =>
    if token ≠ [] ∧ isASCIItoken token ∧ token ∉ stop then [token] else []
  | c :: rest, token =>
    if isAlnum c then tokenizeGo stop rest (token ++ [toLowerByte c])
    else if token = [] then tokenizeGo stop rest []
    else (if isASCIItoken token ∧ token ∉ stop then [token] else []) ++
      tokenizeGo stop rest []

/-- `tokenize` from src/src/indexer.cpp lines 22-46, on the byte string of
the passage, parameterised by the stopword set (a list of byte strings). -/
def tokenize (text : List Nat) (stop : List (List Nat)) : List (List Nat) :=
  tokenizeGo stop text []

/-- Reference definition for the amended C9, following the words of the
specification: the maximal runs of ASCII alphanumeric bytes of the text,
in order. -/
def specRuns (text : List Nat) : List (List Nat) :=
  match text with
  | [] => []
  | c :: rest =>
    if isAlnum c then
      (c :: rest.takeWhile isAlnum) :: specRuns (rest.dropWhile isAlnum)
    else specRuns rest
termination_by text.length
decreasing_by
  · have h := (List.dropWhile_sublist (l := rest) (p := isAlnum)).length_le
    simp only [List.length_cons]
    omega
  · simp [List.length_cons]

/-! ### Builder run files and the merger (src/src/indexer.cpp, src/src/merger.cpp) -/

/-- Terms are byte strings, as a C++ `std::string` is. -/
abbrev Term := List Nat

/-- Lexicographic byte comparison, the semantics of `operator<` on
`std::string` (used by the ordering of the merge heap). -/
def ltBytes : Term → Term → Bool
  | [], [] => false
  | [], _ :: _ => true
  | _ :: _, [] => false
  | a :: as, b :: bs => if a < b then true else if b < a then false else ltBytes as bs

/-- Little-endian bytes of a `uint32_t`, as written by
`outfile.write(reinterpret_cast<const char*>(&v), sizeof(v))` on x86. -/
def u32bytesLE (n : Nat) : List Nat :=
  [n % 256, n / 256 % 256, n / 256 ^ 2 % 256, n / 256 ^ 3 % 256]

/-- The bytes one posting contributes: varbyte docID then varbyte
termFreq (src/src/indexer.cpp lines 78-83, src/src/merger.cpp 293-312). -/
def postingBytes (p : Int × Int) : List Nat :=
  varbyteEncode p.1 ++ varbyteEncode p.2

/-- One term record of an intermediate run file: term length, term bytes,
posting count, then the varbyte postings
(src/src/indexer.cpp lines 67-83). -/
def termRecordBytes (term : Term) (ps : List (Int × Int)) : List Nat :=
  u32bytesLE term.length ++ term ++ u32bytesLE ps.length ++
    (ps.map postingBytes).flatten

/-- `writeBinaryPostingFile` (src/src/indexer.cpp lines 60-87).  The C++
iterates a `std::unordered_map`, whose iteration order is unspecified and
not sorted; the embedding therefore takes the accumulated index in its
iteration order and serializes the records in exactly that order — the
function itself performs no sorting. -/
def writeBinaryPostingFile (invertedIndex : List (Term × List (Int × Int))) :
    List Nat :=
  (invertedIndex.map (fun r => termRecordBytes r.1 r.2)).flatten

/-- A run as the merger reads it back: the sequence of term records of one
intermediate file, each a term with its postings. -/
abbrev Run := List (Term × List (Int × Int))

/-- The smallest current term over all readers, i.e. the term the merge
heap of `mergePostingFiles` pops next (src/src/merger.cpp lines 234-236).
`none` when every reader is exhausted. -/
def minHeadTerm : List Run → Option Term
  | [] => none
  | [] :: rest => minHeadTerm rest
  | ((t, _) :: _) :: rest =>
    match minHeadTerm rest with
    | none => some t
    | some m => if ltBytes t m then some t else some m

/-- The postings one reader contributes when the popped term is `t`: its
current postings when its current term is `t`, nothing otherwise. -/
def headPostings (t : Term) (run : Run) : List (Int × Int) :=
  match run with
  | (s, ps) :: _ => if s = t then ps else []
  | [] => []

/-- The postings collected for the popped term: every reader whose current
term equals `t` contributes its current postings
(src/src/merger.cpp lines 239-253).  The heap pops readers with equal
terms in an unspecified order; the embedding fixes reader order, which is
irrelevant after the sort and coalesce steps below. -/
def collectHeads (t : Term) (runs : List Run) : List (Int × Int) :=
  runs.flatMap (headPostings t)

/-- One reader after the pop of term `t`: advanced past its current record
when its current term was `t`, unchanged otherwise. -/
def advanceStep (t : Term) (run : Run) : Run :=
  match run with
  | (s, _) :: rest => if s = t then rest else run
  | [] => []

/-- Each reader that contributed its current term advances to its next
record (src/src/merger.cpp lines 242-259). -/
def advanceHeads (t : Term) (runs : List Run) : List Run :=
  runs.map (advanceStep t)

/-- Total number of unread term records over all readers. -/
def totalLen (runs : List Run) : Nat := (runs.map List.length).sum

/-- `std::sort` of the merged postings with comparator
`a.docID < b.docID` (src/src/merger.cpp lines 262-266), realized as an
insertion sort: any sort with this comparator agrees after coalescing. -/
def sortByDocID (ps : List (Int × Int)) : List (Int × Int) :=
  List.insertionSort (fun a b => a.1 ≤ b.1) ps

/-- The duplicate-removal loop over the sorted postings: a run of equal
docIDs collapses to one posting with the summed frequencies
(src/src/merger.cpp lines 268-279), `cur` playing `uniquePostings.back()`. -/
def coalesceGo (cur : Int × Int) : List (Int × Int) → List (Int × Int)
  | [] => [cur]
  | p :: ps =>
    if p.1 = cur.1 then coalesceGo (cur.1, cur.2 + p.2) ps
    else cur :: coalesceGo p ps

/-- The full duplicate-removal pass (src/src/merger.cpp lines 269-279). -/
def coalesce : List (Int × Int) → List (Int × Int)
  | [] => []
  | p :: ps => coalesceGo p ps

/-- `uniquePostings` as computed for one popped term: sort by docID, then
coalesce equal docIDs by summing frequencies. -/
def uniquePostings (ps : List (Int × Int)) : List (Int × Int) :=
  coalesce (sortByDocID ps)

/-- The k-way merge loop of `mergePostingFiles`
(src/src/merger.cpp lines 234-285), producing the per-term final posting
lists in the order the terms are popped.  The fuel argument only bounds
the iteration count; `mergeRuns` passes fuel that covers every iteration,
since each iteration consumes at least one term record. -/
def mergeRunsGo : Nat → List Run → List (Term × List (Int × Int))
  | 0, _ => []
  | fuel + 1, runs =>
    match minHeadTerm runs with
    | none => []
    | some t =>
      (t, uniquePostings (collectHeads t runs)) :: mergeRunsGo fuel (advanceHeads t runs)

/-- The merged term sequence of `mergePostingFiles`. -/
def mergeRuns (runs : List Run) : List (Term × List (Int × Int)) :=
  mergeRunsGo (totalLen runs) runs

/-- The bytes `mergePostingFiles` writes to index.bin for one term: the
4-byte posting count, then the varbyte postings
(src/src/merger.cpp lines 287-312). -/
def indexRecordBytes (ps : List (Int × Int)) : List Nat :=
  u32bytesLE ps.length ++ (ps.map postingBytes).flatten

/-- The number of bytes by which `currentOffset` advances for one term:
only the varbyte posting bytes are counted
(src/src/merger.cpp line 314) — not the 4-byte posting count. -/
def indexPostingBytesLen (ps : List (Int × Int)) : Nat :=
  ((ps.map postingBytes).flatten).length

/-- The write loop of `mergePostingFiles` over the merged records: emits
the index.bin bytes and the lexicon entries
`(term, offset, length, docFreq)` (src/src/merger.cpp lines 281-321). -/
def mergeWrite : List (Term × List (Int × Int)) → Nat →
    List Nat × List (Term × Nat × Nat × Nat)
  | [], _ => ([], [])
  | (t, ps) :: rest, currentOffset =>
    let r := mergeWrite rest (currentOffset + indexPostingBytesLen ps)
    (indexRecordBytes ps ++ r.1,
      (t, currentOffset, indexPostingBytesLen ps, ps.length) :: r.2)

/-- `mergePostingFiles` (src/src/merger.cpp lines 206-325): k-way merge of
the runs, then the write loop, returning the index.bin byte stream and the
lexicon. -/
def mergePostingFiles (runs : List Run) :
    List Nat × List (Term × Nat × Nat × Nat) :=
  mergeWrite (mergeRuns runs) 0

/-- Decidable strict sortedness of a list under a boolean comparison. -/
def strictSortedBy (lt : α → α → Bool) : List α → Bool
  | [] => true
  | [_] => true
  | a :: b :: rest => lt a b && strictSortedBy lt (b :: rest)

/-- Sum of the frequencies recorded for docID `d` in a posting list. -/
def sumFreq (d : Int) (ps : List (Int × Int)) : Int :=
  ((ps.filter (fun p => decide (p.1 = d))).map Prod.snd).sum

/-- All postings recorded for term `t` anywhere in the given runs, in run
order: the concatenation the merge step gathers for `t`. -/
def allPostings (t : Term) (runs : List Run) : List (Int × Int) :=
  runs.flatMap (fun run =>
    run.flatMap (fun r => if r.1 = t then r.2 else []))

/-- Whether term `t` has a record in any of the runs. -/
def occursB (t : Term) (runs : List Run) : Bool :=
  runs.any (fun run => run.any (fun r => decide (r.1 = t)))

instance : IsTotal (Int × Int) (fun a b => a.1 ≤ b.1) :=
  ⟨fun a b => Int.le_total a.1 b.1⟩

instance : IsTrans (Int × Int) (fun a b => a.1 ≤ b.1) :=
  ⟨fun _ _ _ h1 h2 => le_trans h1 h2⟩

/-! ### The list reader (src/src/query.cpp) -/

/-- `LexiconEntry` of src/src/query.cpp lines 12-16. -/
structure LexiconEntry where
  offset : Nat
  length : Nat
  docFreq : Nat
deriving DecidableEq

/-- `BlockMetaData` of src/src/query.cpp lines 18-22: `offset` and
`length` are unsigned, `lastDocID` is a C++ `int`. -/
structure BlockMeta where
  offset : Nat
  length : Nat
  lastDocID : Int
deriving DecidableEq

/-- Lookup in the in-memory lexicon map (`lexiconMap.find` /
`lexiconMap.at`), modelled on an association list. -/
def lookupLex (lexicon : List (Term × LexiconEntry)) (t : Term) :
    Option LexiconEntry :=
  match lexicon with
  | [] => none
  | (s, e) :: rest => if s = t then some e else lookupLex rest t

/-- The accumulation loop of `loadBlockMetaData`
(src/src/query.cpp lines 101-114): each metadata line carries a length and
a lastDocID; the absolute offset is the running sum of the lengths. -/
def mkBlockMeta : Nat → List (Nat × Int) → List BlockMeta
  | _, [] => []
  | off, (len, last) :: rest =>
    ⟨off, len, last⟩ :: mkBlockMeta (off + len) rest

/-- `loadBlockMetaData` on the parsed rows of blockMetaData.txt. -/
def loadBlockMetaData (rows : List (Nat × Int)) : List BlockMeta :=
  mkBlockMeta 0 rows

/-- `sliceVector` (src/src/query.cpp lines 226-229).  Callers in this
embedding guard `start + len ≤ vec.length`; beyond that the C++ vector
range constructor is undefined behaviour. -/
def sliceVector (vec : List α) (start len : Nat) : List α :=
  (vec.drop start).take len

/-- `openList` (src/src/query.cpp lines 121-138): look the term up in the
lexicon and read `length` bytes from offset `offset` of index.bin; an
absent term yields the empty buffer. -/
def openList (term : Term) (lexicon : List (Term × LexiconEntry))
    (indexFile : List Nat) : List Nat :=
  match lookupLex lexicon term with
  | none => []
  | some entry => sliceVector indexFile entry.offset entry.length

/-- The loop of `searchBlockIndex` (src/src/query.cpp lines 205-224):
exact-match binary search for `key` among the block offsets.  `left`,
`right` and the result are C++ `int`s.  The fuel only bounds the
iteration count; an out-of-range `vec[mid]` (impossible while
`0 ≤ left ≤ right < vec.length`) would be undefined behaviour and is
mapped to the error result. -/
def searchBlockIndexGo (vec : List BlockMeta) (key : Nat) :
    Nat → Int → Int → Int
  | 0, _, _ => -1
  | fuel + 1, left, right =>
    if left ≤ right then
      match vec[((left + right) / 2).toNat]? with
      | none => -1
      | some bm =>
        if bm.offset < key then
          searchBlockIndexGo vec key fuel ((left + right) / 2 + 1) right
        else if key < bm.offset then
          searchBlockIndexGo vec key fuel left ((left + right) / 2 - 1)
        else (left + right) / 2
    else -1

/-- `searchBlockIndex` with its initial bounds `left = 0`,
`right = size - 1`. -/
def searchBlockIndex (vec : List BlockMeta) (key : Nat) : Int :=
  searchBlockIndexGo vec key (vec.length + 2) 0 ((vec.length : Int) - 1)

/-- The loop of `searchNextDocID` (src/src/query.cpp lines 231-248):
lower-bound binary search with the off-by-one initial bound
`right = size` of the source.  `none` marks the out-of-range
`docIDListBlock[mid]` read the C++ performs when every element is below
the target (undefined behaviour; unreachable under the guard in
`nextGEQ`). -/
def searchNextDocIDGo (v : List Int) (key : Int) :
    Nat → Int → Int → Int → Option Int
  | 0, _, _, found => some found
  | fuel + 1, left, right, found =>
    if left ≤ right then
      match v[((left + right) / 2).toNat]? with
      | none => none
      | some x =>
        if x < key then
          searchNextDocIDGo v key fuel ((left + right) / 2 + 1) right found
        else
          searchNextDocIDGo v key fuel left ((left + right) / 2 - 1)
            ((left + right) / 2)
    else some found

/-- `searchNextDocID` with its initial state `left = 0`, `right = size`,
`foundIndex = -1`. -/
def searchNextDocID (v : List Int) (key : Int) : Option Int :=
  searchNextDocIDGo v key (v.length + 3) 0 (v.length : Int) (-1)

/-- The d-gap reversal inside `nextGEQ` (src/src/query.cpp lines 302-305):
`docID += prevtDocID; prevtDocID = docID;`. -/
def ungap (prev : Int) : List Int → List Int
  | [] => []
  | g :: gs => (prev + g) :: ungap (prev + g) gs

/-- The computation of `prevtDocID` (src/src/query.cpp lines 296-301): 0
at the start of the list, otherwise the lastDocID of the previous
metadata entry; reading `blockMetaDataVec[blockIndex - 1]` out of range
would be undefined behaviour, mapped to `none` (unreachable: the cursor
has skipped at least one block when `startOfList` is false). -/
def prevDocID (startOfList : Bool) (vec : List BlockMeta)
    (blockIndex : Nat) : Option Int :=
  if startOfList then some 0
  else
    match vec[blockIndex - 1]? with
    | none => none
    | some pm => some pm.lastDocID

/-- The `while (listRestLength >= 0)` loop of `nextGEQ`
(src/src/query.cpp lines 275-322), instrumented: the second component
lists the indices at which the loop reads `blockMetaDataVec[blockIndex]`.
`none` marks executions that are undefined behaviour in C++
(out-of-range vector reads or slices); `some (-1, -1)` is the
EndOfList/error return of the source.  The fuel only bounds iterations;
the wrapper passes `vec.length + 1`, enough because `blockIndex` grows
every iteration and the loop errors once it passes `vec.length`. -/
def nextGEQLoop (list : List Nat) (target : Int) (vec : List BlockMeta) :
    Nat → Nat → Nat → Int → Bool → (Option (Int × Int) × List Nat)
  | 0, _, _, _, _ => (none, [])
  | fuel + 1, blockIndex, listStartPos, listRestLength, startOfList =>
    if listRestLength < 0 then (some (-1, -1), [])
    else
      match vec[blockIndex]? with
      | none => (none, [blockIndex])
      | some bm =>
        if bm.lastDocID < target then
          let r := nextGEQLoop list target vec fuel (blockIndex + 1)
            (listStartPos + bm.length) (listRestLength - (bm.length : Int)) false
          (r.1, blockIndex :: r.2)
        else if listStartPos + bm.length ≤ list.length then
          let listBlock := sliceVector list listStartPos bm.length
          let dec := bytesToIntVec listBlock
          let n2 := dec.length
          let docRaw := sliceVector dec 0 (n2 / 2)
          match prevDocID startOfList vec blockIndex with
          | none => (none, [blockIndex])
          | some prev =>
            let docIDs := ungap prev docRaw
            match docIDs.getLast? with
            | none => (none, [blockIndex])
            | some lastID =>
              if lastID < target then (some (-1, -1), [blockIndex])
              else
                match searchNextDocID docIDs target with
                | none => (none, [blockIndex])
                | some idx =>
                  if idx < 0 then (none, [blockIndex])
                  else
                    match docIDs[idx.toNat]?, dec[idx.toNat + n2 / 2]? with
                    | some dID, some fr => (some (dID, fr), [blockIndex])
                    | _, _ => (none, [blockIndex])
        else (none, [blockIndex])

/-- `nextGEQ` (src/src/query.cpp lines 250-329) with the metadata-read
instrumentation of `nextGEQLoop`.  An absent term makes `lexiconMap.at`
throw, modelled as `none`. -/
def nextGEQAux (invertedList : Term × List Nat) (lookUpDocID : Int)
    (blockMetaDataVec : List BlockMeta)
    (lexiconMap : List (Term × LexiconEntry)) :
    Option (Int × Int) × List Nat :=
  match lookupLex lexiconMap invertedList.1 with
  | none => (none, [])
  | some entry =>
    let blockIndex := searchBlockIndex blockMetaDataVec entry.offset
    if blockIndex = -1 then (some (-1, -1), [])
    else
      nextGEQLoop invertedList.2 lookUpDocID blockMetaDataVec
        (blockMetaDataVec.length + 1) blockIndex.toNat 0
        (entry.length : Int) true

/-- `nextGEQ` proper: the returned pair of the source. -/
def nextGEQ (invertedList : Term × List Nat) (lookUpDocID : Int)
    (blockMetaDataVec : List BlockMeta)
    (lexiconMap : List (Term × LexiconEntry)) : Option (Int × Int) :=
  (nextGEQAux invertedList lookUpDocID blockMetaDataVec lexiconMap).1

/-- A sequence of `nextGEQ` calls on the same opened list, lexicon and
block metadata, one per target, in order: the query session the source
drives from `main`.  All three inputs are taken by constant reference in
the C++ signature and no other state exists, which this runner makes
explicit. -/
def runNextGEQCalls (invertedList : Term × List Nat)
    (blockMetaDataVec : List BlockMeta)
    (lexiconMap : List (Term × LexiconEntry)) :
    List Int → List (Option (Int × Int))
  | [] => []
  | t :: ts =>
    nextGEQ invertedList t blockMetaDataVec lexiconMap ::
      runNextGEQCalls invertedList blockMetaDataVec lexiconMap ts

/-- The postings of a blocked list, blocks of docID/termFreq pairs. -/
def flatPostings (blocks : List (List (Nat × Nat))) : List (Nat × Nat) :=
  blocks.flatten

/-- The last docID of a block (`prev` when the block is empty, a case the
well-formedness hypotheses exclude). -/
def lastDocOf (prev : Nat) (b : List (Nat × Nat)) : Nat :=
  (b.map Prod.fst).getLastD prev

/-- The d-gaps of a block given the docID preceding it. -/
def blockGaps (prev : Nat) : List Nat → List Nat
  | [] => []
  | d :: rest => (d - prev) :: blockGaps d rest

/-- The on-disk payload of one block in the layout `nextGEQ` reads: the
varbyte d-gaps of its docIDs, then the varbyte term frequencies
(non-interleaved, as the specification fixes for index.bin). -/
def blockPayload (prev : Nat) (b : List (Nat × Nat)) : List Nat :=
  (((blockGaps prev (b.map Prod.fst)) ++ b.map Prod.snd).map encodeNat).flatten

/-- The byte buffer of a whole term list: its block payloads in order. -/
def buildBuffer (prev : Nat) : List (List (Nat × Nat)) → List Nat
  | [] => []
  | b :: rest => blockPayload prev b ++ buildBuffer (lastDocOf prev b) rest

/-- The blockMetaData rows of a term list: per block, the payload length
and the last docID. -/
def buildMetaRows (prev : Nat) : List (List (Nat × Nat)) → List (Nat × Int)
  | [] => []
  | b :: rest =>
    ((blockPayload prev b).length, (lastDocOf prev b : Int)) ::
      buildMetaRows (lastDocOf prev b) rest

/-- Sum of the lengths of metadata rows. -/
def sumLens (rows : List (Nat × Int)) : Nat := (rows.map Prod.fst).sum

/-- The 130-posting list of the specification's worked example
(`list_b`): docIDs 1..130, every term frequency 1, blocked 64/64/2, so
the blocks end at docIDs 64, 128 and 130. -/
def demoBlocks : List (List (Nat × Nat)) :=
  [(List.range 64).map (fun i => (i + 1, 1)),
   (List.range 64).map (fun i => (i + 65, 1)),
   [(129, 1), (130, 1)]]

/-- The index.bin bytes of the example list. -/
def demoBuf : List Nat := buildBuffer 0 demoBlocks

/-- The blockMetaData rows of the example list (lengths and lastDocIDs
64, 128, 130). -/
def demoRows : List (Nat × Int) := buildMetaRows 0 demoBlocks

/-- The loaded block-metadata vector of the example: it has exactly the
list's three entries, so indices 0..2 are the list's block range. -/
def demoVec : List BlockMeta := loadBlockMetaData demoRows

/-- A lexicon holding only the term `b` (byte 98) with the example
list. -/
def demoLex : List (Term × LexiconEntry) :=
  [([98], ⟨0, demoBuf.length, 130⟩)]

end WSE

namespace WSE

/-! ### Codec lemmas -/

theorem encodeNatGo_congr :
    ∀ f1 f2 n, n ≤ f1 → n ≤ f2 → encodeNatGo f1 n = encodeNatGo f2 n := by
  intro f1
  induction f1 with
  | zero =>
    intro f2 n h1 _
    interval_cases n
    cases f2 <;> simp [encodeNatGo]
  | succ f ih =>
    intro f2 n h1 h2
    cases f2 with
    | zero =>
      interval_cases n
      simp [encodeNatGo]
    | succ g =>
      simp only [encodeNatGo]
      by_cases hn : n < 128
      · rw [if_pos hn, if_pos hn]
      · rw [if_neg hn, if_neg hn]
        have hd : n / 128 ≤ f := by omega
        have hd2 : n / 128 ≤ g := by omega
        rw [ih g (n / 128) hd hd2]

theorem encodeNat_low (n : Nat) (h : n < 128) : encodeNat n = [n] := by
  unfold encodeNat
  cases n with
  | zero => simp [encodeNatGo]
  | succ m => simp [encodeNatGo, h]

theorem encodeNat_high (n : Nat) (h : ¬ n < 128) :
    encodeNat n = (n % 128 + 128) :: encodeNat (n / 128) := by
  unfold encodeNat
  cases n with
  | zero => omega
  | succ m =>
    simp only [encodeNatGo, if_neg h]
    have : encodeNatGo m ((m + 1) / 128) = encodeNatGo ((m + 1) / 128) ((m + 1) / 128) :=
      encodeNatGo_congr m ((m + 1) / 128) ((m + 1) / 128) (by omega) (by omega)
    rw [this]

theorem and_128_of_lt (b : Nat) (h : b < 128) : b &&& 128 = 0 := by
  have h7 : b.testBit 7 = false := Nat.testBit_lt_two_pow h
  have hand := Nat.and_two_pow b 7
  norm_num at hand
  simp [hand, h7]

theorem and_128_of_flag (b : Nat) : (b % 128 + 128) &&& 128 ≠ 0 := by
  have h7 : (b % 128 + 128).testBit 7 = true := by
    have heq : b % 128 + 128 = 2 ^ 7 + b % 128 := by norm_num [Nat.add_comm]
    rw [heq, Nat.testBit_two_pow_add_eq]
    have hlt : (b % 128).testBit 7 = false :=
      Nat.testBit_lt_two_pow (by have := Nat.mod_lt b (y := 128) (by norm_num); omega)
    simp [hlt]
  have hand := Nat.and_two_pow (b % 128 + 128) 7
  norm_num at hand
  simp [hand, h7]

theorem and_127_eq_mod (b : Nat) : b &&& 127 = b % 128 := by
  have h := Nat.and_pow_two_sub_one_eq_mod b 7
  norm_num at h
  exact h

theorem lor_shift_of_lt (value c s : Nat) (h : value < 2 ^ s) :
    value ||| (c <<< s) = c * 2 ^ s + value := by
  rw [Nat.shiftLeft_eq, Nat.lor_comm, Nat.mul_comm c (2 ^ s)]
  exact (Nat.mul_add_lt_is_or h c).symm

theorem byteToIntAux_encodeNat :
    ∀ v s value, value < 2 ^ s →
      byteToIntAux (encodeNat v) s value = v * 2 ^ s + value := by
  intro v
  induction v using Nat.strong_induction_on with
  | _ v ih =>
    intro s value hv
    by_cases h : v < 128
    · rw [encodeNat_low v h]
      simp only [byteToIntAux]
      rw [and_128_of_lt v h, and_127_eq_mod, Nat.mod_eq_of_lt h,
        lor_shift_of_lt value v s hv]
      simp
    · rw [encodeNat_high v h]
      simp only [byteToIntAux]
      rw [if_neg (and_128_of_flag v), and_127_eq_mod]
      have hmod : (v % 128 + 128) % 128 = v % 128 := by omega
      rw [hmod, lor_shift_of_lt value (v % 128) s hv]
      have hacc : v % 128 * 2 ^ s + value < 2 ^ (s + 7) := by
        have h1 : v % 128 ≤ 127 := by omega
        have h2 : v % 128 * 2 ^ s ≤ 127 * 2 ^ s := Nat.mul_le_mul_right _ h1
        have h3 : (2 : Nat) ^ (s + 7) = 2 ^ s * 128 := by rw [pow_add]; norm_num
        omega
      rw [ih (v / 128) (by omega) (s + 7) (v % 128 * 2 ^ s + value) hacc]
      have h3 : (2 : Nat) ^ (s + 7) = 2 ^ s * 128 := by rw [pow_add]; norm_num
      rw [h3]
      conv_rhs => rw [← Nat.div_add_mod v 128]
      ring

theorem byteToIntAux_encodeNat_zero (v : Nat) :
    byteToIntAux (encodeNat v) 0 0 = v := by
  have h := byteToIntAux_encodeNat v 0 0 (by norm_num)
  simpa using h

theorem toInt32_of_lt (n : Nat) (h : n < 2 ^ 31) : toInt32 n = (n : Int) := by
  unfold toInt32
  have h32 : n % 2 ^ 32 = n := Nat.mod_eq_of_lt (by omega)
  rw [h32, if_pos h]

theorem byteToInt_encodeNat (v : Nat) (h : v < 2 ^ 31) :
    byteToInt (encodeNat v) = (v : Int) := by
  unfold byteToInt
  rw [byteToIntAux_encodeNat_zero, toInt32_of_lt v h]

theorem intOfUInt32_of_lt (x : Nat) (h : x < 2 ^ 31) :
    intOfUInt32 x = (x : Int) := toInt32_of_lt x h

theorem varbyteEncode_eq_encodeNat (x : Nat) :
    varbyteEncode (x : Int) = encodeNat x := by
  unfold varbyteEncode
  by_cases h : 128 ≤ x
  · rw [if_pos (by exact_mod_cast h), Int.toNat_natCast]
  · rw [if_neg (by exact_mod_cast h)]
    have hx : x < 128 := by omega
    have h1 : (x : Int) % 128 = (x : Int) :=
      Int.emod_eq_of_lt (Int.natCast_nonneg x) (by exact_mod_cast hx)
    rw [h1, Int.toNat_natCast, encodeNat_low x hx]

/-- C2, amended part: for every `x` below `2 ^ 31` the round trip through
`varbyteEncode` (src/src/indexer.cpp) and `byteToInt` (src/src/query.cpp)
is the identity.  Above `2 ^ 31` the `int` argument of `varbyteEncode`
overflows and the round trip fails (see the counterexample). -/
theorem varbyte_roundtrip_int31 (x : Nat) (h : x < 2 ^ 31) :
    byteToInt (varbyteEncode (intOfUInt32 x)) = (x : Int) := by
  rw [intOfUInt32_of_lt x h, varbyteEncode_eq_encodeNat, byteToInt_encodeNat x h]

/-- Witness for `varbyte_roundtrip_int31` at `x = 300`. -/
theorem varbyte_roundtrip_int31_witness :
    300 < 2 ^ 31 ∧ byteToInt (varbyteEncode (intOfUInt32 300)) = (300 : Int) :=
  ⟨by norm_num, varbyte_roundtrip_int31 300 (by norm_num)⟩

/-- C2, counterexample: at `x = 2 ^ 31` the encoder receives a negative
`int`, emits the single byte `0x00`, and the round trip returns `0`,
refuting the claim for the full range `[0, 2 ^ 32)`. -/
theorem varbyte_roundtrip_fails_at_2pow31 :
    byteToInt (varbyteEncode (intOfUInt32 (2 ^ 31))) = 0 ∧
      (0 : Int) ≠ 2 ^ 31 := by
  constructor
  · decide
  · decide

/-- C3: the run reader of the merger accumulates varbyte bytes big-endian
(`docID = (docID << 7) | (byte & 0x7F)`, src/src/merger.cpp lines 82-106)
while the builder writes little-endian (src/src/indexer.cpp lines 49-57)
— the rule the specification states.  On the encoding of `128` (bytes
`0x80 0x01`) the reader returns `1`, not `128`; the little-endian decode
`byteToInt` of the same bytes returns `128`. -/
theorem merger_reader_misdecodes_128 :
    readVarbyteBE (varbyteEncode 128) 0 = some ((1 : Int), []) ∧
      byteToInt (varbyteEncode 128) = 128 ∧ (1 : Int) ≠ 128 := by
  refine ⟨by decide, by decide, by decide⟩

/-! ### Truncated codewords (C8) -/

theorem readVarbyteBE_truncated :
    ∀ (bs : List Nat) (acc : Nat) (hne : bs ≠ []),
      bs.getLast hne &&& 128 ≠ 0 →
      readVarbyteBE bs acc = none ∨
        ∃ v rest, readVarbyteBE bs acc = some (v, rest) ∧
          rest.length < bs.length ∧
          ∃ hr : rest ≠ [], rest.getLast hr = bs.getLast hne := by
  intro bs
  induction bs with
  | nil => intro acc hne _; exact absurd rfl hne
  | cons b rest ih =>
    intro acc hne hlast
    simp only [readVarbyteBE]
    by_cases hb : b &&& 128 = 0
    · rw [if_pos hb]
      cases rest with
      | nil =>
        exfalso
        have hb2 : (List.getLast [b] hne) = b := rfl
        rw [hb2] at hlast
        exact hlast hb
      | cons r rs =>
        right
        refine ⟨_, _, rfl, by simp, ⟨by simp, ?_⟩⟩
        exact (List.getLast_cons (by simp)).symm
    · rw [if_neg hb]
      cases rest with
      | nil => left; rfl
      | cons r rs =>
        have hlast2 : (r :: rs).getLast (by simp) &&& 128 ≠ 0 := by
          have heq : (b :: r :: rs).getLast hne = (r :: rs).getLast (by simp) :=
            List.getLast_cons (by simp)
          rw [heq] at hlast
          exact hlast
        rcases ih (((acc <<< 7) ||| (b &&& 127)) % 2 ^ 32) (by simp) hlast2 with
          h | ⟨v, rest2, heq, hlen, hr, hl⟩
        · left; exact h
        · right
          refine ⟨v, rest2, heq, by simpa using Nat.lt_succ_of_lt hlen, hr, ?_⟩
          rw [hl]
          exact (List.getLast_cons (by simp)).symm

/-- C8, amended part: the run-reader varbyte decoder of the merger
(src/src/merger.cpp lines 79-106) does fail on truncation: reading
postings from a byte stream whose final byte has the high bit set raises
the EOF error (modelled `none`) whenever the posting count is at least the
stream length, so the truncated tail is always reached.  The query-side
decoder does not fail; see the counterexample. -/
theorem merger_reader_fails_on_truncation :
    ∀ (n : Nat) (bs : List Nat) (hne : bs ≠ []),
      bs.getLast hne &&& 128 ≠ 0 → bs.length ≤ n →
      readPostingsBE n bs = none := by
  intro n
  induction n with
  | zero =>
    intro bs hne _ hlen
    exfalso
    cases bs with
    | nil => exact hne rfl
    | cons b rest => simp at hlen
  | succ n ih =>
    intro bs hne hlast hlen
    rcases readVarbyteBE_truncated bs 0 hne hlast with h | ⟨v, rest, heq, hl, hr, hlast2⟩
    · simp only [readPostingsBE, h]
    · rcases readVarbyteBE_truncated rest 0 hr (by rw [hlast2]; exact hlast) with
        h2 | ⟨v2, rest2, heq2, hl2, hr2, hlast3⟩
      · simp only [readPostingsBE, heq, h2]
      · simp only [readPostingsBE, heq, heq2,
          ih rest2 hr2 (by rw [hlast3, hlast2]; exact hlast) (by omega)]

/-- Witness for `merger_reader_fails_on_truncation` at the single
truncated byte `0x80` read as one posting. -/
theorem merger_reader_fails_on_truncation_witness :
    (128 : Nat) &&& 128 ≠ 0 ∧ readPostingsBE 1 [128] = none :=
  ⟨by decide,
    merger_reader_fails_on_truncation 1 [128] (by decide) (by decide) (by decide)⟩

/-- C8, counterexample: `bytesToIntVec` (src/src/query.cpp lines 162-183)
does not fail on the truncated codeword `[0x80]`: the leftover buffer is
silently decoded, yielding the value list `[0]`.  The function is total
and has no error result at all, refuting the claim that every varbyte
decoder reports truncation. -/
theorem bytesToIntVec_silent_on_truncation :
    bytesToIntVec [128] = [(0 : Int)] := by decide

/-! ### Tokenizer theorems (C9) -/

theorem toLowerByte_le (b : Nat) (h : isAlnum b = true) : toLowerByte b ≤ 127 := by
  simp only [isAlnum, Bool.or_eq_true, Bool.and_eq_true, decide_eq_true_eq] at h
  unfold toLowerByte
  split
  · rename_i hcond
    simp only [Bool.and_eq_true, decide_eq_true_eq] at hcond
    omega
  · omega

theorem isASCIItoken_of_bytes (acc : List Nat) (hascii : ∀ b ∈ acc, b ≤ 127) :
    isASCIItoken acc = true := by
  unfold isASCIItoken
  rw [List.all_eq_true]
  intro b hb
  exact decide_eq_true (hascii b hb)

theorem tokenizeGo_in_run (stop : List (List Nat)) :
    ∀ (text : List Nat) (acc : List Nat), acc ≠ [] → (∀ b ∈ acc, b ≤ 127) →
      tokenizeGo stop text acc =
        (if acc ++ (text.takeWhile isAlnum).map toLowerByte ∉ stop
         then [acc ++ (text.takeWhile isAlnum).map toLowerByte] else []) ++
        tokenizeGo stop (text.dropWhile isAlnum) [] := by
  intro text
  induction text with
  | nil =>
    intro acc hne hascii
    have hA := isASCIItoken_of_bytes acc hascii
    simp only [List.takeWhile_nil, List.dropWhile_nil, List.map_nil,
      List.append_nil, tokenizeGo]
    by_cases hstop : acc ∉ stop
    · rw [if_pos ⟨hne, hA, hstop⟩, if_pos hstop]
      simp
    · rw [if_neg (by tauto), if_neg hstop]
      simp
  | cons c rest ih =>
    intro acc hne hascii
    by_cases hc : isAlnum c = true
    · have h1 : tokenizeGo stop (c :: rest) acc =
          tokenizeGo stop rest (acc ++ [toLowerByte c]) := by
        simp only [tokenizeGo, if_pos hc]
      rw [h1, ih (acc ++ [toLowerByte c]) (by simp)
        (by
          intro b hb
          rcases List.mem_append.mp hb with h | h
          · exact hascii b h
          · simp at h; rw [h]; exact toLowerByte_le c hc)]
      simp [List.takeWhile_cons, List.dropWhile_cons, hc]
    · have hc2 : isAlnum c = false := by revert hc; cases isAlnum c <;> simp
      have hA := isASCIItoken_of_bytes acc hascii
      have h1 : tokenizeGo stop (c :: rest) acc =
          (if isASCIItoken acc = true ∧ acc ∉ stop then [acc] else []) ++
            tokenizeGo stop rest [] := by
        simp only [tokenizeGo, hc2, Bool.false_eq_true, if_false, if_neg hne]
      have h2 : tokenizeGo stop (List.dropWhile isAlnum (c :: rest)) [] =
          tokenizeGo stop rest [] := by
        rw [List.dropWhile_cons]
        simp [hc2, tokenizeGo]
      rw [h1, h2]
      simp only [List.takeWhile_cons, hc2, Bool.false_eq_true, if_false,
        List.map_nil, List.append_nil]
      by_cases hstop : acc ∉ stop
      · rw [if_pos ⟨hA, hstop⟩, if_pos hstop]
      · rw [if_neg (fun hpair => hstop hpair.2), if_neg hstop]

/-- C9, amended part: `tokenize` emits, in order, exactly the maximal runs
of ASCII alphanumeric bytes of the passage, each byte lowercased, omitting
the runs that lowercase to a stopword.  A byte above 127 is never
alphanumeric in the C locale, so it terminates a run instead of joining a
token: the `isASCII` filter of the source never drops anything, and on
`café cat` the emitted tokens are `caf` and `cat` (see the
counterexample), not just `cat` as the claim states. -/
theorem tokenize_eq_maximal_runs (text : List Nat) (stop : List (List Nat)) :
    tokenize text stop =
      ((specRuns text).map (List.map toLowerByte)).filter
        (fun t => decide (t ∉ stop)) := by
  suffices h : ∀ (n : Nat) (text : List Nat), text.length ≤ n →
      tokenizeGo stop text [] =
        ((specRuns text).map (List.map toLowerByte)).filter
          (fun t => decide (t ∉ stop)) by
    exact h text.length text le_rfl
  intro n
  induction n with
  | zero =>
    intro text hlen
    have : text = [] := List.length_eq_zero.mp (Nat.le_zero.mp hlen)
    subst this
    simp [tokenizeGo, specRuns]
  | succ n ih =>
    intro text hlen
    cases text with
    | nil => simp [tokenizeGo, specRuns]
    | cons c rest =>
      by_cases hc : isAlnum c = true
      · have h1 : tokenizeGo stop (c :: rest) [] =
            tokenizeGo stop rest [toLowerByte c] := by
          simp only [tokenizeGo, if_pos hc]
          rfl
        rw [h1, tokenizeGo_in_run stop rest [toLowerByte c] (by simp)
          (by intro b hb; simp at hb; rw [hb]; exact toLowerByte_le c hc)]
        rw [specRuns, if_pos hc]
        simp only [List.map_cons, List.filter_cons]
        have hdrop : (List.dropWhile isAlnum rest).length ≤ n := by
          have h := (List.dropWhile_sublist (l := rest) (p := isAlnum)).length_le
          simp at hlen
          omega
        rw [← ih (List.dropWhile isAlnum rest) hdrop]
        by_cases hstop : (toLowerByte c :: (rest.takeWhile isAlnum).map toLowerByte) ∉ stop
        · rw [if_pos (by simpa using hstop)]
          simp only [decide_eq_true hstop, if_pos]
          simp
        · rw [if_neg (by simpa using hstop)]
          simp only [decide_eq_false hstop]
          simp
      · have hc2 : isAlnum c = false := by revert hc; cases isAlnum c <;> simp
        have h1 : tokenizeGo stop (c :: rest) [] = tokenizeGo stop rest [] := by
          simp [tokenizeGo, hc2]
        rw [h1, specRuns, if_neg (by simp [hc2])]
        exact ih rest (by simp at hlen; omega)

/-- C9, counterexample: on the passage `café cat` (UTF-8 bytes, `é` being
the two bytes 195 169) with an empty stopword set, `tokenize` emits `caf`
and `cat` — not only `cat` as the claim states, because the non-ASCII
bytes terminate the first run instead of marking the token for dropping. -/
theorem tokenize_cafe_counterexample :
    tokenize [99, 97, 102, 195, 169, 32, 99, 97, 116] [] =
      [[99, 97, 102], [99, 97, 116]] ∧
      ([[99, 97, 102], [99, 97, 116]] : List (List Nat)) ≠ [[99, 97, 116]] := by
  refine ⟨by decide, by decide⟩

/-! ### Run files are not term-sorted (C6) -/

/-- C6: `writeBinaryPostingFile` serializes the accumulated map in its
iteration order without sorting.  An `std::unordered_map` holding the
terms `b` (byte 98) and `a` (byte 97) can iterate as `b, a`; the run file
then carries the record of `b` before the record of `a`, which is
descending, refuting the claim that every flush writes ascending term
order. -/
theorem writeBinaryPostingFile_not_sorted :
    writeBinaryPostingFile [([98], [(1, 1)]), ([97], [(2, 1)])] =
      termRecordBytes [98] [(1, 1)] ++ termRecordBytes [97] [(2, 1)] ∧
      ltBytes [98] [97] = false ∧ ([98] : Term) ≠ [97] := by
  refine ⟨by decide, by decide, by decide⟩

/-! ### Lexicon offsets of the merger (C4) -/

/-- C4: on a single run holding the terms `a` (postings `[(1, 1)]`) and
`b` (postings `[(2, 1)]`), the merger writes a 6-byte record per term
(4-byte posting count plus 2 posting bytes) but advances `currentOffset`
only by the 2 posting bytes.  The lexicon records `(a, 0, 2, 1)` and
`(b, 2, 2, 1)`: the entry for `b` claims offset 2 while the record of `b`
actually begins at byte 6 of index.bin, and the entries claim to tile
`[0, 4)` while the file is 12 bytes long — offsets are not file
positions and the entries do not tile the file. -/
theorem merger_lexicon_offsets_mismatch :
    mergePostingFiles [[([97], [(1, 1)]), ([98], [(2, 1)])]] =
      (indexRecordBytes [(1, 1)] ++ indexRecordBytes [(2, 1)],
        [([97], 0, 2, 1), ([98], 2, 2, 1)]) ∧
      (indexRecordBytes [((1 : Int), (1 : Int))]).length = 6 ∧
      ((6 : Nat) ≠ 2) ∧
      (indexRecordBytes [((1 : Int), (1 : Int))] ++
        indexRecordBytes [((2 : Int), (1 : Int))]).length = 12 ∧
      ((12 : Nat) ≠ 2 + 2) := by
  refine ⟨by decide, by decide, by decide, by decide, by decide⟩

/-! ### Coalescing characterization (toward C5) -/

theorem sumFreq_cons (d : Int) (p : Int × Int) (ps : List (Int × Int)) :
    sumFreq d (p :: ps) = (if p.1 = d then p.2 else 0) + sumFreq d ps := by
  unfold sumFreq
  by_cases h : p.1 = d
  · simp [List.filter_cons, h]
  · simp [List.filter_cons, h]

theorem sumFreq_eq_zero (d : Int) (ps : List (Int × Int))
    (h : ∀ q ∈ ps, q.1 ≠ d) : sumFreq d ps = 0 := by
  unfold sumFreq
  have hfil : ps.filter (fun p => decide (p.1 = d)) = [] := by
    rw [List.filter_eq_nil_iff]
    intro a ha
    simp [h a ha]
  rw [hfil]
  simp

theorem sumFreq_perm (d : Int) {ps qs : List (Int × Int)} (h : ps.Perm qs) :
    sumFreq d ps = sumFreq d qs := by
  unfold sumFreq
  exact List.Perm.sum_eq ((h.filter _).map _)

theorem coalesceGo_ne_nil (cur : Int × Int) (ps : List (Int × Int)) :
    coalesceGo cur ps ≠ [] := by
  induction ps generalizing cur with
  | nil => simp [coalesceGo]
  | cons p ps ih =>
    unfold coalesceGo
    by_cases h : p.1 = cur.1
    · rw [if_pos h]; exact ih _
    · rw [if_neg h]; simp

theorem coalesceGo_bound (ps : List (Int × Int)) :
    ∀ (cur : Int × Int),
      List.Sorted (fun a b : Int × Int => a.1 ≤ b.1) ps →
      (∀ q ∈ ps, cur.1 ≤ q.1) →
      ∀ r ∈ coalesceGo cur ps, cur.1 ≤ r.1 := by
  induction ps with
  | nil =>
    intro cur _ _ r hr
    simp [coalesceGo] at hr
    rw [hr]
  | cons p ps ih =>
    intro cur hsort hcur r hr
    rw [List.sorted_cons] at hsort
    unfold coalesceGo at hr
    by_cases h : p.1 = cur.1
    · rw [if_pos h] at hr
      exact ih (cur.1, cur.2 + p.2) hsort.2
        (fun q hq => hcur q (List.mem_cons_of_mem p hq)) r hr
    · rw [if_neg h] at hr
      rcases List.mem_cons.mp hr with h1 | h1
      · rw [h1]
      · have hp := ih p hsort.2 hsort.1 r h1
        exact le_trans (hcur p (List.mem_cons_self p ps)) hp

theorem coalesceGo_sorted (ps : List (Int × Int)) :
    ∀ (cur : Int × Int),
      List.Sorted (fun a b : Int × Int => a.1 ≤ b.1) ps →
      (∀ q ∈ ps, cur.1 ≤ q.1) →
      strictSortedBy (fun p q : Int × Int => decide (p.1 < q.1))
        (coalesceGo cur ps) = true := by
  induction ps with
  | nil => intro cur _ _; simp [coalesceGo, strictSortedBy]
  | cons p ps ih =>
    intro cur hsort hcur
    rw [List.sorted_cons] at hsort
    unfold coalesceGo
    by_cases h : p.1 = cur.1
    · rw [if_pos h]
      exact ih (cur.1, cur.2 + p.2) hsort.2
        (fun q hq => hcur q (List.mem_cons_of_mem p hq))
    · rw [if_neg h]
      have hlt : cur.1 < p.1 :=
        lt_of_le_of_ne (hcur p (List.mem_cons_self p ps)) (fun he => h he.symm)
      cases hR : coalesceGo p ps with
      | nil => exact absurd hR (coalesceGo_ne_nil p ps)
      | cons q qs =>
        have hq : q ∈ coalesceGo p ps := by rw [hR]; exact List.mem_cons_self q qs
        have hpq : p.1 ≤ q.1 := coalesceGo_bound ps p hsort.2 hsort.1 q hq
        have hs := ih p hsort.2 hsort.1
        rw [hR] at hs
        unfold strictSortedBy
        rw [hs]
        simp [lt_of_lt_of_le hlt hpq]

theorem coalesceGo_mem_iff (ps : List (Int × Int)) :
    ∀ (cur : Int × Int),
      List.Sorted (fun a b : Int × Int => a.1 ≤ b.1) ps →
      (∀ q ∈ ps, cur.1 ≤ q.1) →
      ∀ d f, ((d, f) ∈ coalesceGo cur ps ↔
        ((d = cur.1 ∨ d ∈ ps.map Prod.fst) ∧
          f = (if d = cur.1 then cur.2 else 0) + sumFreq d ps)) := by
  induction ps with
  | nil =>
    intro cur _ _ d f
    unfold coalesceGo
    rw [List.mem_singleton]
    constructor
    · intro h
      have hd : d = cur.1 := by rw [← h]
      have hf : f = cur.2 := by rw [← h]
      refine ⟨Or.inl hd, ?_⟩
      rw [if_pos hd]
      simp [sumFreq]
      exact hf
    · rintro ⟨h1, h2⟩
      rcases h1 with h1 | h1
      · rw [if_pos h1] at h2
        simp [sumFreq] at h2
        rw [Prod.ext_iff]
        exact ⟨h1, h2⟩
      · simp at h1
  | cons p ps ih =>
    intro cur hsort hcur d f
    rw [List.sorted_cons] at hsort
    unfold coalesceGo
    by_cases h : p.1 = cur.1
    · rw [if_pos h]
      rw [ih (cur.1, cur.2 + p.2) hsort.2
        (fun q hq => hcur q (List.mem_cons_of_mem p hq)) d f]
      rw [sumFreq_cons]
      constructor
      · rintro ⟨h1, h2⟩
        refine ⟨by
          rcases h1 with h1 | h1
          · exact Or.inl h1
          · exact Or.inr (by simp; exact Or.inr (by simpa using h1)), ?_⟩
        by_cases hd : d = cur.1
        · rw [if_pos hd] at h2 ⊢
          rw [if_pos (by rw [h, hd])]
          rw [h2]; ring
        · rw [if_neg hd] at h2 ⊢
          rw [if_neg (by rw [h]; exact fun he => hd he.symm)]
          rw [h2]; ring
      · rintro ⟨h1, h2⟩
        constructor
        · rcases h1 with h1 | h1
          · exact Or.inl h1
          · simp at h1
            rcases h1 with h1 | h1
            · exact Or.inl (by rw [← h, h1])
            · exact Or.inr (by simpa using h1)
        · by_cases hd : d = cur.1
          · rw [if_pos hd] at h2 ⊢
            rw [if_pos (by rw [h, hd])] at h2
            rw [h2]; ring
          · rw [if_neg hd] at h2 ⊢
            rw [if_neg (by rw [h]; exact fun he => hd he.symm)] at h2
            rw [h2]; ring
    · rw [if_neg h]
      have hlt : cur.1 < p.1 :=
        lt_of_le_of_ne (hcur p (List.mem_cons_self p ps)) (fun he => h he.symm)
      rw [List.mem_cons]
      constructor
      · rintro (h1 | h1)
        · have hdf : d = cur.1 ∧ f = cur.2 := by
            constructor
            · exact congrArg Prod.fst h1
            · exact congrArg Prod.snd h1
          refine ⟨Or.inl hdf.1, ?_⟩
          rw [if_pos hdf.1, sumFreq_cons]
          have hzero : sumFreq d ps = 0 := by
            apply sumFreq_eq_zero
            intro q hq
            have := hsort.1 q hq
            omega
          rw [if_neg (by rw [hdf.1]; omega), hzero, hdf.2]
          ring
        · rw [ih p hsort.2 hsort.1 d f] at h1
          rcases h1 with ⟨h1, h2⟩
          have hd : d ≠ cur.1 := by
            rcases h1 with h1 | h1
            · rw [h1]; omega
            · simp at h1
              rcases h1 with ⟨f2, hf2⟩
              have := hsort.1 (d, f2) hf2
              simp at this
              omega
          refine ⟨Or.inr (by
            rcases h1 with h1 | h1
            · simp [h1]
            · simp; exact Or.inr (by simpa using h1)), ?_⟩
          rw [if_neg hd, sumFreq_cons, h2]
          by_cases hdp : d = p.1
          · rw [if_pos hdp, if_pos (by rw [hdp])]
            ring
          · rw [if_neg hdp, if_neg (fun he => hdp he.symm)]
            ring
      · rintro ⟨h1, h2⟩
        by_cases hd : d = cur.1
        · left
          rw [if_pos hd, sumFreq_cons] at h2
          have hzero : sumFreq d ps = 0 := by
            apply sumFreq_eq_zero
            intro q hq
            have := hsort.1 q hq
            omega
          rw [if_neg (by rw [hd]; omega), hzero] at h2
          have : f = cur.2 := by rw [h2]; ring
          rw [hd, this]
        · right
          rw [ih p hsort.2 hsort.1 d f]
          have h1b : d = p.1 ∨ d ∈ ps.map Prod.fst := by
            rcases h1 with h1 | h1
            · exact absurd h1 hd
            · simpa using h1
          refine ⟨h1b, ?_⟩
          rw [if_neg hd, sumFreq_cons] at h2
          rw [h2]
          by_cases hdp : d = p.1
          · rw [if_pos hdp, if_pos (by rw [hdp])]
            ring
          · rw [if_neg hdp, if_neg (fun he => hdp he.symm)]
            ring

theorem uniquePostings_sorted (ps : List (Int × Int)) :
    strictSortedBy (fun p q : Int × Int => decide (p.1 < q.1))
      (uniquePostings ps) = true := by
  unfold uniquePostings sortByDocID
  have hsorted := List.sorted_insertionSort (fun a b : Int × Int => a.1 ≤ b.1) ps
  cases h : List.insertionSort (fun a b : Int × Int => a.1 ≤ b.1) ps with
  | nil => simp [coalesce, strictSortedBy]
  | cons q qs =>
    rw [h, List.sorted_cons] at hsorted
    unfold coalesce
    exact coalesceGo_sorted qs q hsorted.2 hsorted.1

theorem uniquePostings_mem_iff (ps : List (Int × Int)) (d f : Int) :
    ((d, f) ∈ uniquePostings ps ↔
      (d ∈ ps.map Prod.fst ∧ f = sumFreq d ps)) := by
  unfold uniquePostings sortByDocID
  have hperm := List.perm_insertionSort (fun a b : Int × Int => a.1 ≤ b.1) ps
  have hsorted := List.sorted_insertionSort (fun a b : Int × Int => a.1 ≤ b.1) ps
  cases h : List.insertionSort (fun a b : Int × Int => a.1 ≤ b.1) ps with
  | nil =>
    rw [h] at hperm
    have hps : ps = [] := (hperm.symm).eq_nil
    subst hps
    simp [coalesce, sumFreq]
  | cons q qs =>
    rw [h] at hperm hsorted
    rw [List.sorted_cons] at hsorted
    unfold coalesce
    rw [coalesceGo_mem_iff qs q hsorted.2 hsorted.1 d f]
    have hmem : d ∈ ps.map Prod.fst ↔ (d = q.1 ∨ d ∈ qs.map Prod.fst) := by
      rw [← (hperm.map Prod.fst).mem_iff]
      simp
    have hsum : sumFreq d ps = (if q.1 = d then q.2 else 0) + sumFreq d qs := by
      rw [sumFreq_perm d hperm.symm, sumFreq_cons]
    rw [hmem, hsum]
    by_cases hd : d = q.1
    · rw [if_pos hd, if_pos (by rw [hd])]
    · rw [if_neg hd, if_neg (fun he => hd he.symm)]

/-! ### Byte-string order and the k-way merge (toward C5) -/

theorem ltBytes_irrefl : ∀ (a : Term), ltBytes a a = false := by
  intro a
  induction a with
  | nil => rfl
  | cons a0 as ih =>
    unfold ltBytes
    rw [if_neg (lt_irrefl a0), if_neg (lt_irrefl a0)]
    exact ih

theorem ltBytes_trans :
    ∀ (a b c : Term), ltBytes a b = true → ltBytes b c = true →
      ltBytes a c = true := by
  intro a
  induction a with
  | nil =>
    intro b c h1 h2
    cases b with
    | nil => simp [ltBytes] at h1
    | cons b0 bs =>
      cases c with
      | nil => simp [ltBytes] at h2
      | cons c0 cs => simp [ltBytes]
  | cons a0 as ih =>
    intro b c h1 h2
    cases b with
    | nil => simp [ltBytes] at h1
    | cons b0 bs =>
      cases c with
      | nil => simp [ltBytes] at h2
      | cons c0 cs =>
        unfold ltBytes at h1 h2 ⊢
        by_cases hab : a0 < b0
        · rw [if_pos hab] at h1
          by_cases hbc : b0 < c0
          · rw [if_pos (by omega)]
          · rw [if_neg hbc] at h2
            by_cases hcb : c0 < b0
            · rw [if_pos hcb] at h2; exact absurd h2 (by simp)
            · rw [if_pos (by omega)]
        · rw [if_neg hab] at h1
          by_cases hba : b0 < a0
          · rw [if_pos hba] at h1; exact absurd h1 (by simp)
          · rw [if_neg hba] at h1
            by_cases hbc : b0 < c0
            · rw [if_pos (by omega)]
            · rw [if_neg hbc] at h2
              by_cases hcb : c0 < b0
              · rw [if_pos hcb] at h2; exact absurd h2 (by simp)
              · rw [if_neg hcb] at h2
                rw [if_neg (by omega), if_neg (by omega)]
                exact ih bs cs h1 h2

theorem ltBytes_eq_of_not :
    ∀ (a b : Term), ltBytes a b = false → ltBytes b a = false → a = b := by
  intro a
  induction a with
  | nil =>
    intro b h1 _
    cases b with
    | nil => rfl
    | cons b0 bs => simp [ltBytes] at h1
  | cons a0 as ih =>
    intro b h1 h2
    cases b with
    | nil => simp [ltBytes] at h2
    | cons b0 bs =>
      unfold ltBytes at h1 h2
      by_cases hab : a0 < b0
      · rw [if_pos hab] at h1; exact absurd h1 (by simp)
      · rw [if_neg hab] at h1
        by_cases hba : b0 < a0
        · rw [if_pos hba] at h2; exact absurd h2 (by simp)
        · rw [if_neg hba] at h1 h2
          rw [if_neg hab] at h2
          have ha0 : a0 = b0 := by omega
          rw [ha0, ih bs h1 h2]

theorem strictSortedBy_cons_elim {α : Type} {lt : α → α → Bool}
    (htrans : ∀ x y z, lt x y = true → lt y z = true → lt x z = true) :
    ∀ {l : List α} {a : α}, strictSortedBy lt (a :: l) = true →
      strictSortedBy lt l = true ∧ ∀ b ∈ l, lt a b = true := by
  intro l
  induction l with
  | nil => intro a _; exact ⟨rfl, by simp⟩
  | cons b m ih =>
    intro a h
    unfold strictSortedBy at h
    rw [Bool.and_eq_true] at h
    obtain ⟨hab, hrest⟩ := h
    have hm := ih (a := b) hrest
    refine ⟨hrest, ?_⟩
    intro x hx
    rcases List.mem_cons.mp hx with hx | hx
    · rw [hx]; exact hab
    · exact htrans a b x hab (hm.2 x hx)

theorem flatMap_congr_mem {α β : Type} {l : List α} {f g : α → List β}
    (h : ∀ a ∈ l, f a = g a) : l.flatMap f = l.flatMap g := by
  induction l with
  | nil => rfl
  | cons a l ih =>
    rw [List.flatMap_cons, List.flatMap_cons, h a (List.mem_cons_self a l),
      ih (fun b hb => h b (List.mem_cons_of_mem a hb))]

theorem flatMap_nil_of_mem {α β : Type} {l : List α} {f : α → List β}
    (h : ∀ a ∈ l, f a = []) : l.flatMap f = [] := by
  induction l with
  | nil => rfl
  | cons a l ih =>
    rw [List.flatMap_cons, h a (List.mem_cons_self a l),
      ih (fun b hb => h b (List.mem_cons_of_mem a hb))]
    rfl

theorem minHeadTerm_none (runs : List Run) :
    minHeadTerm runs = none → ∀ run ∈ runs, run = [] := by
  induction runs with
  | nil => intro _ run h; simp at h
  | cons run rest ih =>
    intro h r hr
    cases run with
    | nil =>
      rcases List.mem_cons.mp hr with h1 | h1
      · exact h1
      · exact ih (by simpa [minHeadTerm] using h) r h1
    | cons r0 tail =>
      exfalso
      obtain ⟨t, ps⟩ := r0
      cases hm : minHeadTerm rest with
      | none =>
        simp only [minHeadTerm, hm] at h
        exact Option.noConfusion h
      | some m =>
        simp only [minHeadTerm, hm] at h
        by_cases hb : ltBytes t m = true
        · rw [if_pos hb] at h; exact Option.noConfusion h
        · rw [if_neg hb] at h; exact Option.noConfusion h

theorem minHeadTerm_mem_head :
    ∀ (runs : List Run) (m : Term), minHeadTerm runs = some m →
      ∃ run ∈ runs, ∃ ps tail, run = (m, ps) :: tail := by
  intro runs
  induction runs with
  | nil => intro m h; simp [minHeadTerm] at h
  | cons run rest ih =>
    intro m h
    cases run with
    | nil =>
      have h2 : minHeadTerm rest = some m := by simpa [minHeadTerm] using h
      obtain ⟨run2, hmem, ps, tail, heq⟩ := ih m h2
      exact ⟨run2, List.mem_cons_of_mem _ hmem, ps, tail, heq⟩
    | cons r0 tail =>
      obtain ⟨t, ps⟩ := r0
      cases hm : minHeadTerm rest with
      | none =>
        simp only [minHeadTerm, hm] at h
        have ht : t = m := by simpa using h
        exact ⟨(t, ps) :: tail, List.mem_cons_self _ _, ps, tail, by rw [ht]⟩
      | some m2 =>
        simp only [minHeadTerm, hm] at h
        by_cases hlt : ltBytes t m2 = true
        · rw [if_pos hlt] at h
          have ht : t = m := by simpa using h
          exact ⟨(t, ps) :: tail, List.mem_cons_self _ _, ps, tail, by rw [ht]⟩
        · rw [if_neg hlt] at h
          have hm2 : m2 = m := by simpa using h
          obtain ⟨run2, hmem, ps2, tail2, heq⟩ := ih m (by rw [hm, hm2])
          exact ⟨run2, List.mem_cons_of_mem _ hmem, ps2, tail2, heq⟩

theorem minHeadTerm_le_heads :
    ∀ (runs : List Run) (m : Term), minHeadTerm runs = some m →
      ∀ run ∈ runs, ∀ (t : Term) (ps : List (Int × Int)) (tail : Run),
        run = (t, ps) :: tail → ltBytes t m = false := by
  intro runs
  induction runs with
  | nil => intro m h; simp [minHeadTerm] at h
  | cons run rest ih =>
    intro m h run2 hmem t ps tail heq
    rcases List.mem_cons.mp hmem with h1 | h1
    · have heq2 : run = (t, ps) :: tail := by rw [← h1, heq]
      subst heq2
      cases hm : minHeadTerm rest with
      | none =>
        simp only [minHeadTerm, hm] at h
        have ht : t = m := by simpa using h
        rw [ht]; exact ltBytes_irrefl m
      | some m2 =>
        simp only [minHeadTerm, hm] at h
        by_cases hlt : ltBytes t m2 = true
        · rw [if_pos hlt] at h
          have ht : t = m := by simpa using h
          rw [ht]; exact ltBytes_irrefl m
        · rw [if_neg hlt] at h
          have hm2 : m2 = m := by simpa using h
          rw [← hm2]
          exact Bool.eq_false_iff.mpr hlt
    · cases run with
      | nil =>
        have h2 : minHeadTerm rest = some m := by simpa [minHeadTerm] using h
        exact ih m h2 run2 h1 t ps tail heq
      | cons r0 tail0 =>
        obtain ⟨t0, ps0⟩ := r0
        cases hm : minHeadTerm rest with
        | none =>
          have hempty := minHeadTerm_none rest hm run2 h1
          rw [heq] at hempty
          simp at hempty
        | some m2 =>
          have hle := ih m2 hm run2 h1 t ps tail heq
          simp only [minHeadTerm, hm] at h
          by_cases hlt : ltBytes t0 m2 = true
          · rw [if_pos hlt] at h
            have ht0 : t0 = m := by simpa using h
            by_contra hne
            have htm : ltBytes t m = true := by
              revert hne; cases ltBytes t m <;> simp
            rw [← ht0] at htm
            have htrans := ltBytes_trans t t0 m2 htm hlt
            rw [hle] at htrans
            exact absurd htrans (by simp)
          · rw [if_neg hlt] at h
            have hm2 : m2 = m := by simpa using h
            rw [← hm2]
            exact hle

theorem occurrence_le_min (runs : List Run) (m : Term)
    (hsort : ∀ run ∈ runs, strictSortedBy ltBytes (run.map Prod.fst) = true)
    (h : minHeadTerm runs = some m) :
    ∀ run ∈ runs, ∀ r ∈ run, ltBytes r.1 m = false := by
  intro run hrun r hr
  cases run with
  | nil => simp at hr
  | cons r0 tail =>
    obtain ⟨t0, ps0⟩ := r0
    have hhead : ltBytes t0 m = false :=
      minHeadTerm_le_heads runs m h _ hrun t0 ps0 tail rfl
    rcases List.mem_cons.mp hr with h1 | h1
    · rw [h1]; exact hhead
    · have hs := hsort _ hrun
      rw [List.map_cons] at hs
      have helim := strictSortedBy_cons_elim ltBytes_trans hs
      have htr : ltBytes t0 r.1 = true :=
        helim.2 r.1 (List.mem_map_of_mem Prod.fst h1)
      by_contra hne
      have hrm : ltBytes r.1 m = true := by
        revert hne; cases ltBytes r.1 m <;> simp
      have htrans := ltBytes_trans t0 r.1 m htr hrm
      rw [hhead] at htrans
      exact absurd htrans (by simp)

theorem run_contribution_eq_head (m : Term) (run : Run)
    (hsrun : strictSortedBy ltBytes (run.map Prod.fst) = true)
    (hhead : ∀ (t : Term) (ps : List (Int × Int)) (tail : Run),
      run = (t, ps) :: tail → ltBytes t m = false) :
    run.flatMap (fun r => if r.1 = m then r.2 else []) = headPostings m run := by
  cases run with
  | nil => rfl
  | cons r0 tail =>
    obtain ⟨t0, ps0⟩ := r0
    rw [List.flatMap_cons]
    have hh : ltBytes t0 m = false := hhead t0 ps0 tail rfl
    rw [List.map_cons] at hsrun
    have helim := strictSortedBy_cons_elim ltBytes_trans hsrun
    have htail : tail.flatMap (fun r => if r.1 = m then r.2 else []) = [] := by
      apply flatMap_nil_of_mem
      intro r hr
      have htr : ltBytes t0 r.1 = true :=
        helim.2 r.1 (List.mem_map_of_mem Prod.fst hr)
      have hne : r.1 ≠ m := by
        intro he
        rw [he, hh] at htr
        exact absurd htr (by simp)
      simp only [if_neg hne]
    rw [htail]
    simp only [headPostings]
    simp

theorem allPostings_eq_collectHeads (runs : List Run) (m : Term)
    (hsort : ∀ run ∈ runs, strictSortedBy ltBytes (run.map Prod.fst) = true)
    (h : minHeadTerm runs = some m) :
    allPostings m runs = collectHeads m runs := by
  unfold allPostings collectHeads
  apply flatMap_congr_mem
  intro run hrun
  exact run_contribution_eq_head m run (hsort run hrun)
    (fun t ps tail heq => minHeadTerm_le_heads runs m h run hrun t ps tail heq)

theorem advanceHeads_sorted (m : Term) (runs : List Run)
    (hsort : ∀ run ∈ runs, strictSortedBy ltBytes (run.map Prod.fst) = true) :
    ∀ run ∈ advanceHeads m runs,
      strictSortedBy ltBytes (run.map Prod.fst) = true := by
  intro run2 h
  unfold advanceHeads at h
  rcases List.mem_map.mp h with ⟨run, hrun, heq⟩
  rw [← heq]
  cases run with
  | nil => rfl
  | cons r0 tail =>
    obtain ⟨t, ps⟩ := r0
    simp only [advanceStep]
    by_cases ht : t = m
    · rw [if_pos ht]
      have hs := hsort _ hrun
      rw [List.map_cons] at hs
      exact (strictSortedBy_cons_elim ltBytes_trans hs).1
    · rw [if_neg ht]
      exact hsort _ hrun

theorem allPostings_cons (t : Term) (run : Run) (rest : List Run) :
    allPostings t (run :: rest) =
      run.flatMap (fun r => if r.1 = t then r.2 else []) ++ allPostings t rest := by
  unfold allPostings
  exact List.flatMap_cons run rest _

theorem advanceHeads_cons (m : Term) (run : Run) (rest : List Run) :
    advanceHeads m (run :: rest) = advanceStep m run :: advanceHeads m rest := rfl

theorem occursB_cons (t : Term) (run : Run) (rest : List Run) :
    occursB t (run :: rest) =
      (run.any (fun r => decide (r.1 = t)) || occursB t rest) := rfl

theorem totalLen_cons (run : Run) (rest : List Run) :
    totalLen (run :: rest) = run.length + totalLen rest := by
  unfold totalLen
  simp

theorem allPostings_advanceHeads (t m : Term) (hne : t ≠ m) :
    ∀ runs : List Run,
      allPostings t (advanceHeads m runs) = allPostings t runs := by
  intro runs
  induction runs with
  | nil => rfl
  | cons run rest ih =>
    rw [advanceHeads_cons, allPostings_cons, allPostings_cons, ih]
    congr 1
    cases run with
    | nil => rfl
    | cons r0 tail =>
      obtain ⟨s, ps⟩ := r0
      simp only [advanceStep]
      by_cases hs : s = m
      · rw [if_pos hs, List.flatMap_cons]
        rw [if_neg (by rw [hs]; exact fun he => hne he.symm)]
        rfl
      · rw [if_neg hs]

theorem occursB_advanceHeads (t m : Term) (hne : t ≠ m) :
    ∀ runs : List Run, occursB t (advanceHeads m runs) = occursB t runs := by
  intro runs
  induction runs with
  | nil => rfl
  | cons run rest ih =>
    rw [advanceHeads_cons, occursB_cons, occursB_cons, ih]
    congr 1
    cases run with
    | nil => rfl
    | cons r0 tail =>
      obtain ⟨s, ps⟩ := r0
      simp only [advanceStep]
      by_cases hs : s = m
      · rw [if_pos hs, List.any_cons]
        have hd : decide ((s, ps).1 = t) = false := by
          simp only [decide_eq_false_iff_not]
          intro he
          rw [hs] at he
          exact hne he.symm
        rw [hd]
        simp
      · rw [if_neg hs]

theorem occursB_advance_self_false (runs : List Run) (m : Term)
    (hsort : ∀ run ∈ runs, strictSortedBy ltBytes (run.map Prod.fst) = true)
    (hmin : minHeadTerm runs = some m) :
    occursB m (advanceHeads m runs) = false := by
  unfold occursB
  rw [List.any_eq_false]
  intro run2 hrun2
  unfold advanceHeads at hrun2
  rcases List.mem_map.mp hrun2 with ⟨run, hrun, heq⟩
  simp only [Bool.not_eq_true]
  rw [List.any_eq_false]
  intro r hr
  rw [← heq] at hr
  simp only [Bool.not_eq_true, decide_eq_false_iff_not]
  cases run with
  | nil => simp [advanceStep] at hr
  | cons r0 tail =>
    obtain ⟨s, ps⟩ := r0
    have hs := hsort _ hrun
    rw [List.map_cons] at hs
    have helim := strictSortedBy_cons_elim ltBytes_trans hs
    have hhead : ltBytes s m = false :=
      minHeadTerm_le_heads runs m hmin _ hrun s ps tail rfl
    simp only [advanceStep] at hr
    by_cases hsm : s = m
    · rw [if_pos hsm] at hr
      have htr : ltBytes s r.1 = true :=
        helim.2 r.1 (List.mem_map_of_mem Prod.fst hr)
      intro he
      rw [hsm, he, ltBytes_irrefl m] at htr
      exact absurd htr (by simp)
    · rw [if_neg hsm] at hr
      intro he
      rcases List.mem_cons.mp hr with h1 | h1
      · rw [h1] at he
        exact hsm he
      · have htr : ltBytes s r.1 = true :=
          helim.2 r.1 (List.mem_map_of_mem Prod.fst h1)
        rw [he, hhead] at htr
        exact absurd htr (by simp)

theorem advanceStep_length_le (m : Term) (run : Run) :
    (advanceStep m run).length ≤ run.length := by
  cases run with
  | nil => simp [advanceStep]
  | cons r0 tail =>
    obtain ⟨s, ps⟩ := r0
    simp only [advanceStep]
    by_cases hs : s = m
    · rw [if_pos hs]; simp
    · rw [if_neg hs]

theorem totalLen_advance_le (m : Term) :
    ∀ runs : List Run, totalLen (advanceHeads m runs) ≤ totalLen runs := by
  intro runs
  induction runs with
  | nil => exact le_rfl
  | cons run rest ih =>
    rw [advanceHeads_cons, totalLen_cons, totalLen_cons]
    have := advanceStep_length_le m run
    omega

theorem totalLen_advance_lt (m : Term) :
    ∀ runs : List Run, (∃ run ∈ runs, ∃ ps tail, run = (m, ps) :: tail) →
      totalLen (advanceHeads m runs) < totalLen runs := by
  intro runs
  induction runs with
  | nil => rintro ⟨run, hmem, _⟩; simp at hmem
  | cons run rest ih =>
    rintro ⟨run2, hmem, ps, tail, heq⟩
    rw [advanceHeads_cons, totalLen_cons, totalLen_cons]
    rcases List.mem_cons.mp hmem with h1 | h1
    · have heq2 : run = (m, ps) :: tail := by rw [← h1, heq]
      rw [heq2]
      have hle := totalLen_advance_le m rest
      simp [advanceStep]
      omega
    · have hlt := ih ⟨run2, h1, ps, tail, heq⟩
      have hstep := advanceStep_length_le m run
      omega

theorem occursB_false_of_empty (t : Term) :
    ∀ runs : List Run, (∀ run ∈ runs, run = []) → occursB t runs = false := by
  intro runs
  induction runs with
  | nil => intro _; rfl
  | cons run rest ih =>
    intro h
    rw [occursB_cons, h run (List.mem_cons_self _ _)]
    simp only [List.any_nil, Bool.false_or]
    exact ih (fun r hr => h r (List.mem_cons_of_mem _ hr))

theorem empty_of_totalLen_zero :
    ∀ runs : List Run, totalLen runs = 0 → ∀ run ∈ runs, run = [] := by
  intro runs
  induction runs with
  | nil => intro _ run h; simp at h
  | cons run rest ih =>
    intro h r hr
    rw [totalLen_cons] at h
    rcases List.mem_cons.mp hr with h1 | h1
    · rw [h1]
      exact List.length_eq_zero.mp (by omega)
    · exact ih (by omega) r h1

theorem occursB_of_minHead (runs : List Run) (m : Term)
    (h : minHeadTerm runs = some m) : occursB m runs = true := by
  obtain ⟨run, hmem, ps, tail, heq⟩ := minHeadTerm_mem_head runs m h
  unfold occursB
  rw [List.any_eq_true]
  refine ⟨run, hmem, ?_⟩
  rw [List.any_eq_true]
  refine ⟨(m, ps), ?_, by simp⟩
  rw [heq]
  exact List.mem_cons_self _ _

theorem mergeRunsGo_filter :
    ∀ (fuel : Nat) (runs : List Run), totalLen runs ≤ fuel →
      (∀ run ∈ runs, strictSortedBy ltBytes (run.map Prod.fst) = true) →
      ∀ t : Term,
        (mergeRunsGo fuel runs).filter (fun r => decide (r.1 = t)) =
          (if occursB t runs then
            [(t, uniquePostings (allPostings t runs))] else []) := by
  intro fuel
  induction fuel with
  | zero =>
    intro runs hlen _ t
    have hempty := empty_of_totalLen_zero runs (Nat.le_zero.mp hlen)
    rw [occursB_false_of_empty t runs hempty]
    simp [mergeRunsGo]
  | succ fuel ih =>
    intro runs hlen hsort t
    cases hmin : minHeadTerm runs with
    | none =>
      have hempty := minHeadTerm_none runs hmin
      rw [occursB_false_of_empty t runs hempty]
      simp [mergeRunsGo, hmin]
    | some m =>
      have hhead := minHeadTerm_mem_head runs m hmin
      have hltL := totalLen_advance_lt m runs hhead
      have hsort2 := advanceHeads_sorted m runs hsort
      have hrec := ih (advanceHeads m runs) (by omega) hsort2
      have hstep : mergeRunsGo (fuel + 1) runs =
          (m, uniquePostings (collectHeads m runs)) ::
            mergeRunsGo fuel (advanceHeads m runs) := by
        simp [mergeRunsGo, hmin]
      rw [hstep, List.filter_cons]
      by_cases ht : t = m
      · subst ht
        rw [if_pos (by simp)]
        rw [hrec t, occursB_advance_self_false runs t hsort hmin]
        rw [if_pos (occursB_of_minHead runs t hmin)]
        rw [allPostings_eq_collectHeads runs t hsort hmin]
        simp
      · rw [if_neg (by
          simp only [decide_eq_true_eq]
          exact fun he => ht he.symm)]
        rw [hrec t, occursB_advanceHeads t m ht runs,
          allPostings_advanceHeads t m ht runs]

/-- C5: for term-sorted runs and any term `t` occurring in some run, the
merge loop of `mergePostingFiles` emits exactly one record for `t`, whose
posting list has strictly ascending docIDs (each docID once), contains a
docID iff some run records it for `t`, and stores for it the sum of the
frequencies recorded for that docID over all runs. -/
theorem merger_postings_union_sum (runs : List Run)
    (hsort : ∀ run ∈ runs, strictSortedBy ltBytes (run.map Prod.fst) = true)
    (t : Term) (hocc : occursB t runs = true) :
    ∃ qs,
      (mergeRuns runs).filter (fun r => decide (r.1 = t)) = [(t, qs)] ∧
      strictSortedBy (fun p q : Int × Int => decide (p.1 < q.1)) qs = true ∧
      ∀ d f : Int, ((d, f) ∈ qs ↔
        (d ∈ (allPostings t runs).map Prod.fst ∧
          f = sumFreq d (allPostings t runs))) := by
  refine ⟨uniquePostings (allPostings t runs), ?_,
    uniquePostings_sorted _, fun d f => uniquePostings_mem_iff _ d f⟩
  unfold mergeRuns
  rw [mergeRunsGo_filter (totalLen runs) runs le_rfl hsort t, if_pos hocc]

/-! ### List-reader lemmas (toward C1, C7, C10) -/

theorem strictSortedBy_pairwise {α : Type} {lt : α → α → Bool}
    (htrans : ∀ x y z, lt x y = true → lt y z = true → lt x z = true) :
    ∀ {l : List α}, strictSortedBy lt l = true →
      l.Pairwise (fun a b => lt a b = true) := by
  intro l
  induction l with
  | nil => intro _; exact List.Pairwise.nil
  | cons a m ih =>
    intro h
    have helim := strictSortedBy_cons_elim htrans h
    exact List.Pairwise.cons helim.2 (ih helim.1)

theorem pairwise_le_getLastD :
    ∀ (l : List Nat), l.Pairwise (· < ·) →
      ∀ (d0 : Nat), ∀ x ∈ l, x ≤ l.getLastD d0 := by
  intro l
  induction l with
  | nil => intro _ d0 x hx; simp at hx
  | cons a m ih =>
    intro hp d0 x hx
    rw [List.getLastD_cons]
    rw [List.pairwise_cons] at hp
    rcases List.mem_cons.mp hx with h1 | h1
    · cases m with
      | nil => rw [h1, List.getLastD_nil]
      | cons b k =>
        have hab : a < b := hp.1 b (List.mem_cons_self b k)
        have hb := ih hp.2 a b (List.mem_cons_self b k)
        rw [h1]
        omega
    · exact ih hp.2 a x h1

theorem mkBlockMeta_length (off : Nat) (rows : List (Nat × Int)) :
    (mkBlockMeta off rows).length = rows.length := by
  induction rows generalizing off with
  | nil => rfl
  | cons r rest ih =>
    obtain ⟨len, last⟩ := r
    simp [mkBlockMeta, ih]

theorem mkBlockMeta_append (off : Nat) (r1 r2 : List (Nat × Int)) :
    mkBlockMeta off (r1 ++ r2) =
      mkBlockMeta off r1 ++ mkBlockMeta (off + sumLens r1) r2 := by
  induction r1 generalizing off with
  | nil => simp [mkBlockMeta, sumLens]
  | cons r rest ih =>
    obtain ⟨len, last⟩ := r
    have hs : sumLens ((len, last) :: rest) = len + sumLens rest := by
      simp [sumLens]
    rw [List.cons_append]
    show (⟨off, len, last⟩ : BlockMeta) :: mkBlockMeta (off + len) (rest ++ r2)
      = mkBlockMeta off ((len, last) :: rest) ++
        mkBlockMeta (off + sumLens ((len, last) :: rest)) r2
    rw [ih (off + len), hs, ← Nat.add_assoc]
    rfl

theorem mkBlockMeta_offset_ge (off : Nat) (rows : List (Nat × Int)) :
    ∀ bm ∈ mkBlockMeta off rows, off ≤ bm.offset := by
  induction rows generalizing off with
  | nil => intro bm h; simp [mkBlockMeta] at h
  | cons r rest ih =>
    obtain ⟨len, last⟩ := r
    intro bm h
    rcases List.mem_cons.mp h with h1 | h1
    · rw [h1]
    · have := ih (off + len) bm h1
      omega

theorem mkBlockMeta_pairwise (off : Nat) (rows : List (Nat × Int))
    (hlens : ∀ row ∈ rows, 1 ≤ row.1) :
    (mkBlockMeta off rows).Pairwise (fun a b => a.offset < b.offset) := by
  induction rows generalizing off with
  | nil => exact List.Pairwise.nil
  | cons r rest ih =>
    obtain ⟨len, last⟩ := r
    refine List.Pairwise.cons ?_
      (ih (off + len) (fun row hrow => hlens row (List.mem_cons_of_mem _ hrow)))
    intro bm hbm
    have hge := mkBlockMeta_offset_ge (off + len) rest bm hbm
    have h1 : 1 ≤ len := hlens (len, last) (List.mem_cons_self _ _)
    show off < bm.offset
    omega

theorem mkBlockMeta_getElem (rows : List (Nat × Int)) :
    ∀ (off : Nat) (j : Nat), (hj : j < rows.length) →
      (mkBlockMeta off rows)[j]? =
        some ⟨off + sumLens (rows.take j), (rows.get ⟨j, hj⟩).1,
          (rows.get ⟨j, hj⟩).2⟩ := by
  induction rows with
  | nil => intro off j hj; simp at hj
  | cons r rest ih =>
    obtain ⟨len, last⟩ := r
    intro off j hj
    cases j with
    | zero => simp [mkBlockMeta, sumLens]
    | succ k =>
      have hk : k < rest.length := by simpa using hj
      have := ih (off + len) k hk
      simp only [mkBlockMeta, List.getElem?_cons_succ, this, List.take_succ_cons,
        List.get_cons_succ]
      congr 2
      simp [sumLens]
      omega

theorem searchBlockIndexGo_finds (vec : List BlockMeta) (key : Nat)
    (hmono : vec.Pairwise (fun a b => a.offset < b.offset))
    (fb : Nat) (hfb : fb < vec.length)
    (hkey : (vec.get ⟨fb, hfb⟩).offset = key) :
    ∀ (fuel : Nat) (left right : Int),
      0 ≤ left → right < (vec.length : Int) →
      left ≤ (fb : Int) → (fb : Int) ≤ right →
      (right + 1 - left).toNat < fuel →
      searchBlockIndexGo vec key fuel left right = (fb : Int) := by
  have hget : ∀ (i j : Nat) (hi : i < vec.length) (hj : j < vec.length),
      i < j → (vec.get ⟨i, hi⟩).offset < (vec.get ⟨j, hj⟩).offset := by
    intro i j hi hj hij
    exact List.pairwise_iff_get.mp hmono ⟨i, hi⟩ ⟨j, hj⟩ hij
  intro fuel
  induction fuel with
  | zero => intro left right _ _ _ _ hm; omega
  | succ fuel ih =>
    intro left right hl hr hlf hfr hm
    unfold searchBlockIndexGo
    rw [if_pos (by omega)]
    have hmid0 : 0 ≤ (left + right) / 2 := by omega
    have hmidr : (left + right) / 2 ≤ right := by omega
    have hmidl : left ≤ (left + right) / 2 := by omega
    have hmlt : ((left + right) / 2).toNat < vec.length := by omega
    have hsome : vec[((left + right) / 2).toNat]? =
        some (vec.get ⟨((left + right) / 2).toNat, hmlt⟩) :=
      List.getElem?_eq_getElem hmlt
    rw [hsome]
    dsimp only
    by_cases hlt :
        (vec.get ⟨((left + right) / 2).toNat, hmlt⟩).offset < key
    · rw [if_pos hlt]
      have hmfb : ((left + right) / 2).toNat < fb := by
        by_contra hge
        push_neg at hge
        rcases Nat.lt_or_ge fb (((left + right) / 2).toNat) with h1 | h1
        · have := hget fb (((left + right) / 2).toNat) hfb hmlt h1
          omega
        · have heq : fb = ((left + right) / 2).toNat := by omega
          subst heq
          omega
      exact ih ((left + right) / 2 + 1) right (by omega) hr (by omega) hfr
        (by omega)
    · by_cases hgt :
          key < (vec.get ⟨((left + right) / 2).toNat, hmlt⟩).offset
      · rw [if_neg hlt, if_pos hgt]
        have hmfb : fb < ((left + right) / 2).toNat := by
          by_contra hge
          push_neg at hge
          rcases Nat.lt_or_ge (((left + right) / 2).toNat) fb with h1 | h1
          · have := hget (((left + right) / 2).toNat) fb hmlt hfb h1
            omega
          · have heq : fb = ((left + right) / 2).toNat := by omega
            subst heq
            omega
        exact ih left ((left + right) / 2 - 1) hl (by omega) hlf (by omega)
          (by omega)
      · rw [if_neg hlt, if_neg hgt]
        have hmfb : ((left + right) / 2).toNat = fb := by
          by_contra hne
          rcases Nat.lt_or_ge (((left + right) / 2).toNat) fb with h1 | h1
          · have := hget (((left + right) / 2).toNat) fb hmlt hfb h1
            omega
          · have h2 : fb < ((left + right) / 2).toNat := by omega
            have := hget fb (((left + right) / 2).toNat) hfb hmlt h2
            omega
        omega

theorem searchNextDocIDGo_finds (v : List Int) (key : Int)
    (hmono : v.Pairwise (· < ·))
    (ans : Nat) (hans : ans < v.length)
    (hge : key ≤ v.get ⟨ans, hans⟩)
    (hleast : ∀ (j : Nat) (hj : j < v.length), j < ans → v.get ⟨j, hj⟩ < key) :
    ∀ (fuel : Nat) (left right found : Int),
      0 ≤ left → right ≤ (v.length : Int) →
      left ≤ (ans : Int) →
      ((ans : Int) ≤ right ∨ found = (ans : Int)) →
      (right + 1 - left).toNat < fuel →
      searchNextDocIDGo v key fuel left right found = some (ans : Int) := by
  have hget : ∀ (i j : Nat) (hi : i < v.length) (hj : j < v.length),
      i < j → v.get ⟨i, hi⟩ < v.get ⟨j, hj⟩ := by
    intro i j hi hj hij
    exact List.pairwise_iff_get.mp hmono ⟨i, hi⟩ ⟨j, hj⟩ hij
  intro fuel
  induction fuel with
  | zero => intro left right found _ _ _ _ hm; omega
  | succ fuel ih =>
    intro left right found hl hr hla hinv hm
    by_cases hlr : left ≤ right
    · unfold searchNextDocIDGo
      rw [if_pos hlr]
      have hmlt : ((left + right) / 2).toNat < v.length := by omega
      have hsome : v[((left + right) / 2).toNat]? =
          some (v.get ⟨((left + right) / 2).toNat, hmlt⟩) :=
        List.getElem?_eq_getElem hmlt
      rw [hsome]
      dsimp only
      by_cases hx : v.get ⟨((left + right) / 2).toNat, hmlt⟩ < key
      · rw [if_pos hx]
        have hmans : ((left + right) / 2).toNat < ans := by
          by_contra hcon
          push_neg at hcon
          rcases Nat.lt_or_ge ans (((left + right) / 2).toNat) with h1 | h1
          · have := hget ans (((left + right) / 2).toNat) hans hmlt h1
            omega
          · have heq : ans = ((left + right) / 2).toNat := by omega
            subst heq
            omega
        exact ih ((left + right) / 2 + 1) right found (by omega) hr (by omega)
          (by rcases hinv with h1 | h1 <;> [left; right] <;> omega) (by omega)
      · rw [if_neg hx]
        have hansm : ans ≤ ((left + right) / 2).toNat := by
          by_contra hcon
          push_neg at hcon
          have := hleast (((left + right) / 2).toNat) hmlt hcon
          omega
        refine ih left ((left + right) / 2 - 1) ((left + right) / 2)
          hl (by omega) hla ?_ (by omega)
        rcases Nat.lt_or_ge ans (((left + right) / 2).toNat) with h1 | h1
        · left; omega
        · right
          have heq : ans = ((left + right) / 2).toNat := by omega
          omega
    · unfold searchNextDocIDGo
      rw [if_neg hlr]
      rcases hinv with h1 | h1
      · omega
      · rw [h1]

theorem searchNextDocID_finds (v : List Int) (key : Int)
    (hmono : v.Pairwise (· < ·))
    (ans : Nat) (hans : ans < v.length)
    (hge : key ≤ v.get ⟨ans, hans⟩)
    (hleast : ∀ (j : Nat) (hj : j < v.length), j < ans → v.get ⟨j, hj⟩ < key) :
    searchNextDocID v key = some (ans : Int) := by
  unfold searchNextDocID
  exact searchNextDocIDGo_finds v key hmono ans hans hge hleast (v.length + 3)
    0 (v.length : Int) (-1) le_rfl le_rfl (by omega) (Or.inl (by omega))
    (by omega)

theorem bytesToIntVecGo_encode :
    ∀ (v : Nat) (rest buffer : List Nat),
      bytesToIntVecGo (encodeNat v ++ rest) buffer =
        byteToInt (buffer ++ encodeNat v) :: bytesToIntVecGo rest [] := by
  intro v
  induction v using Nat.strong_induction_on with
  | _ v ih =>
    intro rest buffer
    by_cases h : v < 128
    · rw [encodeNat_low v h]
      show bytesToIntVecGo (v :: rest) buffer = _
      simp only [bytesToIntVecGo]
      rw [if_pos (and_128_of_lt v h)]
    · rw [encodeNat_high v h, List.cons_append]
      simp only [bytesToIntVecGo]
      rw [if_neg (and_128_of_flag v)]
      rw [ih (v / 128) (by omega) rest (buffer ++ [v % 128 + 128])]
      rw [List.append_assoc, List.singleton_append]

theorem bytesToIntVec_encode_concat :
    ∀ (vs : List Nat), (∀ v ∈ vs, v < 2 ^ 31) →
      bytesToIntVec ((vs.map encodeNat).flatten) =
        vs.map (fun n : Nat => (n : Int)) := by
  intro vs
  induction vs with
  | nil => intro _; rfl
  | cons v rest ih =>
    intro h
    unfold bytesToIntVec
    simp only [List.map_cons, List.flatten_cons]
    rw [bytesToIntVecGo_encode v _ [], List.nil_append,
      byteToInt_encodeNat v (h v (List.mem_cons_self v rest))]
    show _ :: bytesToIntVec ((rest.map encodeNat).flatten) = _
    rw [ih (fun x hx => h x (List.mem_cons_of_mem v hx))]

theorem blockGaps_length : ∀ (ds : List Nat) (prev : Nat),
    (blockGaps prev ds).length = ds.length := by
  intro ds
  induction ds with
  | nil => intro prev; rfl
  | cons d rest ih =>
    intro prev
    simp only [blockGaps, List.length_cons, ih d]

theorem ungap_blockGaps :
    ∀ (ds : List Nat) (prev : Nat), ds.Pairwise (· < ·) →
      (∀ d ∈ ds, prev ≤ d) →
      ungap (prev : Int) ((blockGaps prev ds).map (fun n : Nat => (n : Int))) =
        ds.map (fun n : Nat => (n : Int)) := by
  intro ds
  induction ds with
  | nil => intro prev _ _; rfl
  | cons d rest ih =>
    intro prev hp hle
    rw [List.pairwise_cons] at hp
    simp only [blockGaps, List.map_cons, ungap]
    have hpd : prev ≤ d := hle d (List.mem_cons_self d rest)
    have h1 : (prev : Int) + ((d - prev : Nat) : Int) = (d : Int) := by omega
    rw [h1, ih d hp.2 (fun x hx => le_of_lt (hp.1 x hx))]

theorem getLast?_eq_getLastD {α : Type} :
    ∀ (l : List α) (d : α), l ≠ [] → l.getLast? = some (l.getLastD d) := by
  intro l
  induction l with
  | nil => intro d h; exact absurd rfl h
  | cons a m ih =>
    intro d _
    cases m with
    | nil => rfl
    | cons b k =>
      rw [List.getLast?_cons_cons, List.getLastD_cons]
      exact ih a (by simp)

theorem getLastD_mem {α : Type} :
    ∀ (l : List α) (d : α), l ≠ [] → l.getLastD d ∈ l := by
  intro l
  induction l with
  | nil => intro d h; exact absurd rfl h
  | cons a m ih =>
    intro d _
    rw [List.getLastD_cons]
    cases m with
    | nil => simp [List.getLastD_nil]
    | cons b k => exact List.mem_cons_of_mem a (ih a (by simp))

theorem blockGaps_mem_le :
    ∀ (ds : List Nat) (prev : Nat) (x : Nat), x ∈ blockGaps prev ds →
      ∃ d ∈ ds, x ≤ d := by
  intro ds
  induction ds with
  | nil => intro prev x h; simp [blockGaps] at h
  | cons d rest ih =>
    intro prev x h
    rcases List.mem_cons.mp h with h1 | h1
    · exact ⟨d, List.mem_cons_self d rest, by omega⟩
    · obtain ⟨d2, hd2, hle⟩ := ih d x h1
      exact ⟨d2, List.mem_cons_of_mem d hd2, hle⟩

theorem searchBlockIndex_finds (vec : List BlockMeta) (key : Nat)
    (hmono : vec.Pairwise (fun a b => a.offset < b.offset))
    (fb : Nat) (hfb : fb < vec.length)
    (hkey : (vec.get ⟨fb, hfb⟩).offset = key) :
    searchBlockIndex vec key = (fb : Int) := by
  unfold searchBlockIndex
  exact searchBlockIndexGo_finds vec key hmono fb hfb hkey (vec.length + 2) 0
    ((vec.length : Int) - 1) le_rfl (by omega) (by omega) (by omega) (by omega)

theorem nextGEQLoop_correct :
    ∀ (bs : List (List (Nat × Nat))) (fuel : Nat)
      (list : List Nat) (target : Int) (vec : List BlockMeta)
      (bi lspLen : Nat) (startOfList : Bool) (base : Nat) (lpre : List Nat),
      list = lpre ++ buildBuffer base bs →
      lspLen = lpre.length →
      (∀ (j : Nat) (hj : j < (buildMetaRows base bs).length),
        ∃ off : Nat, vec[bi + j]? =
          some ⟨off, ((buildMetaRows base bs).get ⟨j, hj⟩).1,
            ((buildMetaRows base bs).get ⟨j, hj⟩).2⟩) →
      (startOfList = false → ∃ pm : BlockMeta, vec[bi - 1]? = some pm ∧
        pm.lastDocID = (base : Int)) →
      (startOfList = true → base = 0) →
      (∀ bm ∈ vec, 1 ≤ bm.length) →
      (∀ b ∈ bs, b ≠ []) →
      ((bs.flatten).map Prod.fst).Pairwise (· < ·) →
      (∀ p ∈ bs.flatten, base ≤ p.1) →
      (∀ p ∈ bs.flatten, p.1 < 2 ^ 31 ∧ p.2 < 2 ^ 31) →
      ∀ r, (nextGEQLoop list target vec fuel bi lspLen
          ((buildBuffer base bs).length : Int) startOfList).1 = some r →
        r = (-1, -1) ∨
        (∃ d f : Nat, (d, f) ∈ bs.flatten ∧ r = ((d : Int), (f : Int)) ∧
          target ≤ (d : Int) ∧
          ∀ d2 f2 : Nat, (d2, f2) ∈ bs.flatten → target ≤ (d2 : Int) →
            d ≤ d2) := by
  intro bs
  induction bs with
  | nil =>
    intro fuel list target vec bi lspLen startOfList base lpre
    intro hlist hlsp hmeta hprev hstart hlens hboxne hpw hbase hbounds r hr
    cases fuel with
    | zero => simp [nextGEQLoop] at hr
    | succ fuel =>
      rw [nextGEQLoop] at hr
      rw [if_neg (by simp [buildBuffer])] at hr
      cases hv : vec[bi]? with
      | none => rw [hv] at hr; simp at hr
      | some pm =>
        rw [hv] at hr
        dsimp only at hr
        by_cases hlast : pm.lastDocID < target
        · rw [if_pos hlast] at hr
          dsimp only at hr
          have hplen : 1 ≤ pm.length := hlens pm (List.getElem?_mem hv)
          have hneg : ((buildBuffer base ([] : List (List (Nat × Nat)))).length : Int)
              - (pm.length : Int) < 0 := by
            simp [buildBuffer]
            omega
          cases fuel with
          | zero => simp [nextGEQLoop] at hr
          | succ fuel2 =>
            rw [nextGEQLoop, if_pos hneg] at hr
            have h2 : some ((-1 : Int), (-1 : Int)) = some r := hr
            injection h2 with h3
            exact Or.inl h3.symm
        · rw [if_neg hlast] at hr
          have hplen : 1 ≤ pm.length := hlens pm (List.getElem?_mem hv)
          have hrange : ¬ (lspLen + pm.length ≤ list.length) := by
            rw [hlist, hlsp]
            simp [buildBuffer]
            omega
          rw [if_neg hrange] at hr
          simp at hr
  | cons b rest ih =>
    intro fuel list target vec bi lspLen startOfList base lpre
    intro hlist hlsp hmeta hprev hstart hlens hboxne hpw hbase hbounds r hr
    cases fuel with
    | zero => simp [nextGEQLoop] at hr
    | succ fuel =>
      have hbne : b ≠ [] := hboxne b (List.mem_cons_self b rest)
      have hfstne : b.map Prod.fst ≠ [] := by
        intro h
        exact hbne (List.map_eq_nil_iff.mp h)
      -- decompositions of the flattened postings
      have hflat : ((b :: rest).flatten).map Prod.fst =
          (b.map Prod.fst) ++ ((rest.flatten).map Prod.fst) := by
        rw [List.flatten_cons, List.map_append]
      have hpwparts := (List.pairwise_append.mp (hflat ▸ hpw))
      have hpwb : (b.map Prod.fst).Pairwise (· < ·) := hpwparts.1
      have hpwrest : ((rest.flatten).map Prod.fst).Pairwise (· < ·) :=
        hpwparts.2.1
      have hcross : ∀ x ∈ b.map Prod.fst, ∀ y ∈ (rest.flatten).map Prod.fst,
          x < y := hpwparts.2.2
      have hlastmem : lastDocOf base b ∈ b.map Prod.fst :=
        getLastD_mem (b.map Prod.fst) base hfstne
      have hrows : buildMetaRows base (b :: rest) =
          ((blockPayload base b).length, ((lastDocOf base b : Nat) : Int)) ::
            buildMetaRows (lastDocOf base b) rest := rfl
      have hbuf : buildBuffer base (b :: rest) =
          blockPayload base b ++ buildBuffer (lastDocOf base b) rest := rfl
      obtain ⟨off, hv0⟩ := hmeta 0 (by rw [hrows]; simp)
      rw [Nat.add_zero] at hv0
      have hv : vec[bi]? = some ⟨off, (blockPayload base b).length,
          ((lastDocOf base b : Nat) : Int)⟩ := hv0
      rw [nextGEQLoop] at hr
      rw [if_neg (by omega)] at hr
      rw [hv] at hr
      dsimp only at hr
      by_cases hlt : ((lastDocOf base b : Nat) : Int) < target
      · -- the skip branch: this block's lastDocID is below the target
        rw [if_pos hlt] at hr
        dsimp only at hr
        have harg : ((buildBuffer base (b :: rest)).length : Int) -
            ((blockPayload base b).length : Int) =
            ((buildBuffer (lastDocOf base b) rest).length : Int) := by
          rw [hbuf, List.length_append]
          push_cast
          ring
        rw [harg] at hr
        have hres := ih fuel list target vec (bi + 1)
          (lspLen + (blockPayload base b).length) false (lastDocOf base b)
          (lpre ++ blockPayload base b)
          (by rw [hlist, hbuf, List.append_assoc])
          (by rw [hlsp, List.length_append])
          (by
            intro j hj
            have hj2 : j + 1 < (buildMetaRows base (b :: rest)).length := by
              rw [hrows]
              simpa using Nat.succ_lt_succ hj
            obtain ⟨off2, hv2⟩ := hmeta (j + 1) hj2
            refine ⟨off2, ?_⟩
            rw [show bi + 1 + j = bi + (j + 1) by omega]
            exact hv2)
          (by
            intro _
            exact ⟨⟨off, (blockPayload base b).length,
              ((lastDocOf base b : Nat) : Int)⟩, by simpa using hv, rfl⟩)
          (by intro h; exact absurd h (by simp))
          hlens
          (fun bx hbx => hboxne bx (List.mem_cons_of_mem b hbx))
          hpwrest
          (by
            intro p hp
            have hmem : p.1 ∈ (rest.flatten).map Prod.fst :=
              List.mem_map_of_mem Prod.fst hp
            exact le_of_lt (hcross (lastDocOf base b) hlastmem p.1 hmem))
          (by
            intro p hp
            exact hbounds p (by rw [List.flatten_cons]; exact
              List.mem_append_right b hp))
          r hr
        rcases hres with h1 | ⟨d, f, hmem, hreq, htar, hmin⟩
        · exact Or.inl h1
        · right
          refine ⟨d, f, by
            rw [List.flatten_cons]
            exact List.mem_append_right b hmem, hreq, htar, ?_⟩
          intro d2 f2 hmem2 htar2
          rw [List.flatten_cons] at hmem2
          rcases List.mem_append.mp hmem2 with h2 | h2
          · exfalso
            have hd2 : d2 ∈ b.map Prod.fst := List.mem_map_of_mem Prod.fst h2
            have hle := pairwise_le_getLastD (b.map Prod.fst) hpwb base d2 hd2
            have : (d2 : Int) ≤ ((lastDocOf base b : Nat) : Int) := by
              exact_mod_cast hle
            omega
          · exact hmin d2 f2 h2 htar2
      · -- the stay branch: decode this block
        rw [if_neg hlt] at hr
        have hrange : lspLen + (blockPayload base b).length ≤ list.length := by
          rw [hlist, hbuf, hlsp]
          simp only [List.length_append]
          omega
        rw [if_pos hrange] at hr
        have hboundsb : ∀ p ∈ b, p.1 < 2 ^ 31 ∧ p.2 < 2 ^ 31 := by
          intro p hp
          exact hbounds p
            (by rw [List.flatten_cons]; exact List.mem_append_left _ hp)
        have hbaseb : ∀ d ∈ b.map Prod.fst, base ≤ d := by
          intro d hd
          rcases List.mem_map.mp hd with ⟨p, hp, hpd⟩
          rw [← hpd]
          exact hbase p
            (by rw [List.flatten_cons]; exact List.mem_append_left _ hp)
        have hslice : sliceVector list lspLen (blockPayload base b).length =
            blockPayload base b := by
          rw [hlist, hbuf, hlsp]
          unfold sliceVector
          rw [List.drop_left, List.take_left]
        have hb31 : ∀ v ∈ blockGaps base (b.map Prod.fst) ++ b.map Prod.snd,
            v < 2 ^ 31 := by
          intro v hv2
          rcases List.mem_append.mp hv2 with h1 | h1
          · obtain ⟨d, hd, hvd⟩ := blockGaps_mem_le (b.map Prod.fst) base v h1
            rcases List.mem_map.mp hd with ⟨p, hp, hpd⟩
            have := (hboundsb p hp).1
            omega
          · rcases List.mem_map.mp h1 with ⟨p, hp, hpv⟩
            rw [← hpv]
            exact (hboundsb p hp).2
        have hdecomp : bytesToIntVec (blockPayload base b) =
            (blockGaps base (b.map Prod.fst)).map (fun n : Nat => (n : Int)) ++
              (b.map Prod.snd).map (fun n : Nat => (n : Int)) := by
          show bytesToIntVec
            (((blockGaps base (b.map Prod.fst) ++ b.map Prod.snd).map
              encodeNat).flatten) = _
          rw [bytesToIntVec_encode_concat _ hb31, List.map_append]
        have hglen : (blockGaps base (b.map Prod.fst)).length = b.length := by
          rw [blockGaps_length, List.length_map]
        have hn2 : (((blockGaps base (b.map Prod.fst)).map
              (fun n : Nat => (n : Int))) ++
              ((b.map Prod.snd).map (fun n : Nat => (n : Int)))).length / 2 =
            b.length := by
          rw [List.length_append, List.length_map, List.length_map, hglen,
            List.length_map]
          omega
        have hdocRaw : sliceVector
            (((blockGaps base (b.map Prod.fst)).map (fun n : Nat => (n : Int))) ++
              ((b.map Prod.snd).map (fun n : Nat => (n : Int)))) 0 b.length =
            (blockGaps base (b.map Prod.fst)).map (fun n : Nat => (n : Int)) := by
          unfold sliceVector
          rw [List.drop_zero]
          have hlen2 : b.length = ((blockGaps base (b.map Prod.fst)).map
              (fun n : Nat => (n : Int))).length := by
            rw [List.length_map, hglen]
          rw [hlen2, List.take_left]
        have hprevEq : prevDocID startOfList vec bi = some ((base : Nat) : Int) := by
          unfold prevDocID
          cases hso : startOfList with
          | false =>
            rw [if_neg (by simp)]
            obtain ⟨pm, hpm, hpmL⟩ := hprev hso
            rw [hpm]
            dsimp only
            rw [hpmL]
          | true =>
            rw [if_pos rfl, hstart hso]
            norm_num
        have hungap : ungap ((base : Nat) : Int)
            ((blockGaps base (b.map Prod.fst)).map (fun n : Nat => (n : Int))) =
            (b.map Prod.fst).map (fun n : Nat => (n : Int)) :=
          ungap_blockGaps (b.map Prod.fst) base hpwb hbaseb
        have hmapne : (b.map Prod.fst).map (fun n : Nat => (n : Int)) ≠ [] := by
          intro hcon
          exact hfstne (List.map_eq_nil_iff.mp hcon)
        have hlastq : ((b.map Prod.fst).map
            (fun n : Nat => (n : Int))).getLast? =
            some ((lastDocOf base b : Nat) : Int) := by
          rw [getLast?_eq_getLastD _ ((base : Nat) : Int) hmapne]
          congr 1
          exact List.getLastD_map _ _ _
        have hlenInt : (((b.map Prod.fst)).map
            (fun n : Nat => (n : Int))).length = b.length := by
          rw [List.length_map, List.length_map]
        have hblen : 1 ≤ b.length := List.length_pos.mpr hbne
        have hPex : ∃ j, j < b.length ∧ target ≤
            ((b.map Prod.fst).map (fun n : Nat => (n : Int))).getD j 0 := by
          refine ⟨b.length - 1, by omega, ?_⟩
          have h1 : ((b.map Prod.fst).map (fun n : Nat => (n : Int)))[b.length - 1]? =
              some ((lastDocOf base b : Nat) : Int) := by
            rw [← hlastq, List.getLast?_eq_getElem?, hlenInt]
          rw [List.getD_eq_getElem?_getD, h1]
          simp only [Option.getD_some]
          omega
        set ans := Nat.find hPex with hansdef
        have hans1 : ans < b.length := (Nat.find_spec hPex).1
        have hans2 : target ≤
            ((b.map Prod.fst).map (fun n : Nat => (n : Int))).getD ans 0 :=
          (Nat.find_spec hPex).2
        have hansIdx : ans < (((b.map Prod.fst)).map
            (fun n : Nat => (n : Int))).length := by rw [hlenInt]; exact hans1
        have hgetD : ∀ (j : Nat) (hj : j < (((b.map Prod.fst)).map
            (fun n : Nat => (n : Int))).length),
            ((b.map Prod.fst).map (fun n : Nat => (n : Int))).getD j 0 =
              ((b.map Prod.fst).map (fun n : Nat => (n : Int))).get ⟨j, hj⟩ := by
          intro j hj
          rw [List.getD_eq_getElem?_getD, List.getElem?_eq_getElem hj]
          rfl
        have hgeIdx : target ≤
            ((b.map Prod.fst).map (fun n : Nat => (n : Int))).get ⟨ans, hansIdx⟩ := by
          rw [← hgetD ans hansIdx]
          exact hans2
        have hleastIdx : ∀ (j : Nat) (hj : j < (((b.map Prod.fst)).map
            (fun n : Nat => (n : Int))).length), j < ans →
            ((b.map Prod.fst).map (fun n : Nat => (n : Int))).get ⟨j, hj⟩ < target := by
          intro j hj hja
          have hmin := Nat.find_min hPex hja
          push_neg at hmin
          have hjb : j < b.length := by rw [← hlenInt]; exact hj
          have := hmin hjb
          rw [hgetD j hj] at this
          omega
        have hmonoInt : (((b.map Prod.fst)).map
            (fun n : Nat => (n : Int))).Pairwise (· < ·) := by
          rw [List.pairwise_map]
          exact hpwb.imp (fun h => by exact_mod_cast h)
        have hsearch : searchNextDocID
            ((b.map Prod.fst).map (fun n : Nat => (n : Int))) target =
            some ((ans : Nat) : Int) :=
          searchNextDocID_finds _ target hmonoInt ans hansIdx hgeIdx hleastIdx
        have hIdxNat : (((ans : Nat) : Int)).toNat = ans := Int.toNat_natCast ans
        have hE8 : ((b.map Prod.fst).map (fun n : Nat => (n : Int)))[ans]? =
            some (((b.get ⟨ans, hans1⟩).1 : Int)) := by
          rw [List.getElem?_eq_getElem hansIdx]
          congr 1
          rw [List.getElem_map, List.getElem_map]
          rfl
        have hE9 : ((((blockGaps base (b.map Prod.fst)).map
              (fun n : Nat => (n : Int))) ++
              ((b.map Prod.snd).map (fun n : Nat => (n : Int)))))[ans + b.length]? =
            some (((b.get ⟨ans, hans1⟩).2 : Int)) := by
          rw [List.getElem?_append_right (by rw [List.length_map, hglen]; omega)]
          have hidx2 : ans + b.length - ((blockGaps base (b.map Prod.fst)).map
              (fun n : Nat => (n : Int))).length = ans := by
            rw [List.length_map, hglen]
            omega
          rw [hidx2]
          have h2 : ans < ((b.map Prod.snd).map
              (fun n : Nat => (n : Int))).length := by
            rw [List.length_map, List.length_map]
            exact hans1
          rw [List.getElem?_eq_getElem h2]
          congr 1
          rw [List.getElem_map, List.getElem_map]
          rfl
        rw [hslice, hdecomp, hn2, hdocRaw, hprevEq] at hr
        dsimp only at hr
        rw [hungap, hlastq] at hr
        dsimp only at hr
        rw [if_neg hlt, hsearch] at hr
        dsimp only at hr
        rw [if_neg (by omega), hIdxNat, hE8, hE9] at hr
        dsimp only at hr
        have hinj : some ((((b.get ⟨ans, hans1⟩).1 : Nat) : Int),
            (((b.get ⟨ans, hans1⟩).2 : Nat) : Int)) = some r := hr
        injection hinj with hreq
        right
        refine ⟨(b.get ⟨ans, hans1⟩).1, (b.get ⟨ans, hans1⟩).2, ?_, hreq.symm, ?_, ?_⟩
        · rw [List.flatten_cons]
          refine List.mem_append_left _ ?_
          have : ((b.get ⟨ans, hans1⟩).1, (b.get ⟨ans, hans1⟩).2) = b.get ⟨ans, hans1⟩ := rfl
          rw [this]
          exact List.getElem_mem hans1
        · have : ((b.map Prod.fst).map (fun n : Nat => (n : Int))).get ⟨ans, hansIdx⟩ =
              (((b.get ⟨ans, hans1⟩).1 : Nat) : Int) := by
            rw [List.get_eq_getElem, List.getElem_map, List.getElem_map]
            rfl
          rw [← this]
          exact hgeIdx
        · intro d2 f2 hmem2 htar2
          rw [List.flatten_cons] at hmem2
          rcases List.mem_append.mp hmem2 with h2 | h2
          · obtain ⟨j, hj, hbj⟩ := List.mem_iff_getElem.mp h2
            have hjInt : j < (((b.map Prod.fst)).map
                (fun n : Nat => (n : Int))).length := by
              rw [hlenInt]; exact hj
            have hval : ((b.map Prod.fst).map (fun n : Nat => (n : Int))).get ⟨j, hjInt⟩ =
                (d2 : Int) := by
              rw [List.get_eq_getElem, List.getElem_map, List.getElem_map, hbj]
            rcases Nat.lt_or_ge j ans with hja | hja
            · exfalso
              have := hleastIdx j hjInt hja
              rw [hval] at this
              omega
            · rcases Nat.eq_or_lt_of_le hja with hje | hjlt
              · subst hje
                have heq : ((b.map Prod.fst).map (fun n : Nat => (n : Int))).get ⟨ans, hjInt⟩ =
                    (((b.get ⟨ans, hans1⟩).1 : Nat) : Int) := by
                  rw [List.get_eq_getElem, List.getElem_map, List.getElem_map]
                  rfl
                rw [heq] at hval
                exact_mod_cast le_of_eq hval
              · have hmono := List.pairwise_iff_get.mp hmonoInt
                  ⟨ans, hansIdx⟩ ⟨j, hjInt⟩ hjlt
                have heq : ((b.map Prod.fst).map (fun n : Nat => (n : Int))).get ⟨ans, hansIdx⟩ =
                    (((b.get ⟨ans, hans1⟩).1 : Nat) : Int) := by
                  rw [List.get_eq_getElem, List.getElem_map, List.getElem_map]
                  rfl
                rw [heq, hval] at hmono
                exact_mod_cast le_of_lt hmono
          · have hdmem : (b.get ⟨ans, hans1⟩).1 ∈ b.map Prod.fst :=
              List.mem_map_of_mem Prod.fst (List.getElem_mem hans1)
            have hd2mem : d2 ∈ (rest.flatten).map Prod.fst :=
              List.mem_map_of_mem Prod.fst h2
            exact le_of_lt (hcross _ hdmem _ hd2mem)

/-- Witness for `merger_postings_union_sum` on the concrete duplicate
scenario of the claim: run 0 holds `(42, 3)` and run 1 holds `(42, 5)`
for the term `a` (byte 97); the merged list is the single posting
`(42, 8)` and the lexicon records docFreq 1. -/
theorem merger_postings_union_sum_witness :
    (∀ run ∈ [[([97], [((42 : Int), (3 : Int))])],
        [([97], [((42 : Int), (5 : Int))])]],
      strictSortedBy ltBytes (run.map Prod.fst) = true) ∧
    occursB [97] [[([97], [((42 : Int), (3 : Int))])],
        [([97], [((42 : Int), (5 : Int))])]] = true ∧
    mergeRuns [[([97], [((42 : Int), (3 : Int))])],
        [([97], [((42 : Int), (5 : Int))])]] = [([97], [(42, 8)])] ∧
    (mergePostingFiles [[([97], [((42 : Int), (3 : Int))])],
        [([97], [((42 : Int), (5 : Int))])]]).2 = [([97], 0, 2, 1)] ∧
    (∃ qs,
      (mergeRuns [[([97], [((42 : Int), (3 : Int))])],
          [([97], [((42 : Int), (5 : Int))])]]).filter
        (fun r => decide (r.1 = [97])) = [([97], qs)] ∧
      strictSortedBy (fun p q : Int × Int => decide (p.1 < q.1)) qs = true ∧
      ∀ d f : Int, ((d, f) ∈ qs ↔
        (d ∈ (allPostings [97] [[([97], [((42 : Int), (3 : Int))])],
            [([97], [((42 : Int), (5 : Int))])]]).map Prod.fst ∧
          f = sumFreq d (allPostings [97]
            [[([97], [((42 : Int), (3 : Int))])],
              [([97], [((42 : Int), (5 : Int))])]])))) :=
  ⟨by decide, by decide, by decide, by decide,
    merger_postings_union_sum _ (by decide) [97] (by decide)⟩

theorem encodeNat_ne_nil (n : Nat) : encodeNat n ≠ [] := by
  unfold encodeNat
  cases n with
  | zero => simp [encodeNatGo]
  | succ m =>
    rw [encodeNatGo]
    split <;> simp

theorem blockPayload_pos (prev : Nat) (b : List (Nat × Nat)) (hb : b ≠ []) :
    1 ≤ (blockPayload prev b).length := by
  obtain ⟨p, rest, rfl⟩ := List.exists_cons_of_ne_nil hb
  show 1 ≤ ((((blockGaps prev ((p :: rest).map Prod.fst)) ++
    (p :: rest).map Prod.snd).map encodeNat).flatten).length
  rw [List.map_cons, blockGaps, List.cons_append, List.map_cons,
    List.flatten_cons, List.length_append]
  have hne := encodeNat_ne_nil (p.1 - prev)
  have hlen : 1 ≤ (encodeNat (p.1 - prev)).length := List.length_pos.mpr hne
  omega

theorem mkBlockMeta_mem_length (off : Nat) (rows : List (Nat × Int)) :
    ∀ bm ∈ mkBlockMeta off rows, ∃ row ∈ rows, bm.length = row.1 := by
  induction rows generalizing off with
  | nil => intro bm h; simp [mkBlockMeta] at h
  | cons r rest ih =>
    obtain ⟨len, last⟩ := r
    intro bm h
    rcases List.mem_cons.mp h with h1 | h1
    · exact ⟨(len, last), List.mem_cons_self _ _, by rw [h1]⟩
    · obtain ⟨row, hrow, hlen⟩ := ih (off + len) bm h1
      exact ⟨row, List.mem_cons_of_mem _ hrow, hlen⟩

theorem buildMetaRows_lens (bs : List (List (Nat × Nat))) :
    ∀ (prev : Nat), (∀ b ∈ bs, b ≠ []) →
      ∀ row ∈ buildMetaRows prev bs, 1 ≤ row.1 := by
  induction bs with
  | nil => intro prev _ row h; simp [buildMetaRows] at h
  | cons b rest ih =>
    intro prev hne row h
    rw [buildMetaRows] at h
    rcases List.mem_cons.mp h with h1 | h1
    · subst h1
      exact blockPayload_pos prev b (hne b (List.mem_cons_self _ _))
    · exact ih (lastDocOf prev b)
        (fun b2 hb2 => hne b2 (List.mem_cons_of_mem _ hb2)) row h1

/-- C1: for every term present in the lexicon — its opened list being the
blocked buffer of `blocks`, its lexicon entry pointing at that buffer in
index.bin, the block metadata holding the list's rows — and every target,
whenever `nextGEQ` on the opened list returns a value, that value is
either the EndOfList marker `(-1, -1)` or a posting `(d, f)` of the list
with `target ≤ d`, `d` the smallest docID of the list that is `≥ target`,
and `f` the term frequency stored for `d`. -/
theorem nextGEQ_correct (blocks : List (List (Nat × Nat)))
    (lexicon : List (Term × LexiconEntry)) (term : Term) (docFreq : Nat)
    (pre post : List (Nat × Int)) (vec : List BlockMeta)
    (indexFile filePre fileSuf : List Nat) (target : Int)
    (hblocks : blocks ≠ [])
    (hbne : ∀ b ∈ blocks, b ≠ [])
    (hpw : ((blocks.flatten).map Prod.fst).Pairwise (· < ·))
    (hbounds : ∀ p ∈ blocks.flatten, p.1 < 2 ^ 31 ∧ p.2 < 2 ^ 31)
    (hvec : vec = loadBlockMetaData (pre ++ buildMetaRows 0 blocks ++ post))
    (hpre1 : ∀ row ∈ pre, 1 ≤ row.1)
    (hpost1 : ∀ row ∈ post, 1 ≤ row.1)
    (hlex : lookupLex lexicon term =
      some ⟨sumLens pre, (buildBuffer 0 blocks).length, docFreq⟩)
    (hfile : indexFile = filePre ++ (buildBuffer 0 blocks ++ fileSuf))
    (hflen : filePre.length = sumLens pre) :
    ∀ r, nextGEQ (term, openList term lexicon indexFile) target vec lexicon =
        some r →
      r = (-1, -1) ∨
      (∃ d f : Nat, (d, f) ∈ blocks.flatten ∧ r = ((d : Int), (f : Int)) ∧
        target ≤ (d : Int) ∧
        ∀ d2 f2 : Nat, (d2, f2) ∈ blocks.flatten → target ≤ (d2 : Int) →
          d ≤ d2) := by
  intro r hr
  have hopen : openList term lexicon indexFile = buildBuffer 0 blocks := by
    unfold openList
    rw [hlex]
    show sliceVector indexFile (sumLens pre) (buildBuffer 0 blocks).length = _
    rw [hfile]
    unfold sliceVector
    rw [← hflen, List.drop_left, List.take_left]
  rw [hopen] at hr
  have hrowsne : 0 < (buildMetaRows 0 blocks).length := by
    cases blocks with
    | nil => exact absurd rfl hblocks
    | cons b rest => simp [buildMetaRows]
  have hveclen : vec.length =
      (pre ++ buildMetaRows 0 blocks ++ post).length := by
    rw [hvec]
    unfold loadBlockMetaData
    rw [mkBlockMeta_length]
  have hfb : pre.length < vec.length := by
    rw [hveclen]
    simp only [List.length_append]
    omega
  have hjlt : pre.length < (pre ++ buildMetaRows 0 blocks ++ post).length := by
    simp only [List.length_append]
    omega
  have htake : (pre ++ buildMetaRows 0 blocks ++ post).take pre.length =
      pre := by
    rw [List.append_assoc]
    exact List.take_left _ _
  have hv0 := mkBlockMeta_getElem
    (pre ++ buildMetaRows 0 blocks ++ post) 0 pre.length hjlt
  rw [htake, Nat.zero_add] at hv0
  have hvp : vec[pre.length]? =
      some ⟨sumLens pre,
        ((pre ++ buildMetaRows 0 blocks ++ post).get ⟨pre.length, hjlt⟩).1,
        ((pre ++ buildMetaRows 0 blocks ++ post).get ⟨pre.length, hjlt⟩).2⟩ := by
    rw [hvec]
    unfold loadBlockMetaData
    exact hv0
  have hget : (vec.get ⟨pre.length, hfb⟩).offset = sumLens pre := by
    have hge : vec[pre.length]? = some (vec.get ⟨pre.length, hfb⟩) :=
      List.getElem?_eq_getElem hfb
    rw [hge] at hvp
    injection hvp with h
    rw [h]
  have hmono : vec.Pairwise (fun a b => a.offset < b.offset) := by
    rw [hvec]
    unfold loadBlockMetaData
    refine mkBlockMeta_pairwise 0 _ ?_
    intro row hrow
    rcases List.mem_append.mp hrow with h1 | h1
    · rcases List.mem_append.mp h1 with h2 | h2
      · exact hpre1 row h2
      · exact buildMetaRows_lens blocks 0 hbne row h2
    · exact hpost1 row h1
  have hsearch : searchBlockIndex vec (sumLens pre) = (pre.length : Int) :=
    searchBlockIndex_finds vec (sumLens pre) hmono pre.length hfb hget
  have hmeta : ∀ (j : Nat) (hj : j < (buildMetaRows 0 blocks).length),
      ∃ off : Nat, vec[pre.length + j]? =
        some ⟨off, ((buildMetaRows 0 blocks).get ⟨j, hj⟩).1,
          ((buildMetaRows 0 blocks).get ⟨j, hj⟩).2⟩ := by
    intro j hj
    refine ⟨sumLens ((pre ++ buildMetaRows 0 blocks ++ post).take
      (pre.length + j)), ?_⟩
    have hjlt2 : pre.length + j <
        (pre ++ buildMetaRows 0 blocks ++ post).length := by
      simp only [List.length_append]
      omega
    have h0 := mkBlockMeta_getElem
      (pre ++ buildMetaRows 0 blocks ++ post) 0 (pre.length + j) hjlt2
    rw [Nat.zero_add] at h0
    have hR : (pre ++ buildMetaRows 0 blocks ++ post)[pre.length + j]? =
        some ((buildMetaRows 0 blocks).get ⟨j, hj⟩) := by
      rw [List.getElem?_append_left
        (by simp only [List.length_append]; omega)]
      rw [List.getElem?_append_right (by omega)]
      have hsub : pre.length + j - pre.length = j := by omega
      rw [hsub, List.getElem?_eq_getElem hj]
      rfl
    have hRget : (pre ++ buildMetaRows 0 blocks ++ post).get
        ⟨pre.length + j, hjlt2⟩ = (buildMetaRows 0 blocks).get ⟨j, hj⟩ := by
      have hge := List.getElem?_eq_getElem hjlt2
      rw [hge] at hR
      injection hR
    rw [hvec]
    show (mkBlockMeta 0 (pre ++ buildMetaRows 0 blocks ++ post))[pre.length + j]? = _
    rw [h0, hRget]
  have hlensAll : ∀ bm ∈ vec, 1 ≤ bm.length := by
    intro bm hbm
    rw [hvec] at hbm
    unfold loadBlockMetaData at hbm
    obtain ⟨row, hrow, hlen⟩ := mkBlockMeta_mem_length 0 _ bm hbm
    rw [hlen]
    rcases List.mem_append.mp hrow with h1 | h1
    · rcases List.mem_append.mp h1 with h2 | h2
      · exact hpre1 row h2
      · exact buildMetaRows_lens blocks 0 hbne row h2
    · exact hpost1 row h1
  unfold nextGEQ nextGEQAux at hr
  dsimp only at hr
  rw [hlex] at hr
  dsimp only at hr
  rw [hsearch] at hr
  rw [if_neg (by omega)] at hr
  rw [Int.toNat_natCast] at hr
  exact nextGEQLoop_correct blocks (vec.length + 1) (buildBuffer 0 blocks)
    target vec pre.length 0 true 0 []
    (List.nil_append _).symm rfl hmeta (fun h => nomatch h) (fun _ => rfl)
    hlensAll hbne hpw (fun p _ => Nat.zero_le _) hbounds r hr

/-- Witness for `nextGEQ_correct`: a one-block, one-posting list for the
term `a` (byte 97) holding the posting `(7, 1)`; `nextGEQ` at target 0
returns `(7, 1)` and the theorem certifies it. -/
theorem nextGEQ_correct_witness :
    nextGEQ ([97], openList [97]
        [([97], ⟨0, (buildBuffer 0 [[(7, 1)]]).length, 1⟩)]
        (buildBuffer 0 [[(7, 1)]])) 0
      (loadBlockMetaData ([] ++ buildMetaRows 0 [[(7, 1)]] ++ []))
      [([97], ⟨0, (buildBuffer 0 [[(7, 1)]]).length, 1⟩)] =
      some (7, 1) ∧
    (((7 : Int), (1 : Int)) = (-1, -1) ∨
      (∃ d f : Nat, (d, f) ∈ ([[(7, 1)]] :
          List (List (Nat × Nat))).flatten ∧
        ((7 : Int), (1 : Int)) = ((d : Int), (f : Int)) ∧
        (0 : Int) ≤ (d : Int) ∧
        ∀ d2 f2 : Nat, (d2, f2) ∈ ([[(7, 1)]] :
            List (List (Nat × Nat))).flatten → (0 : Int) ≤ (d2 : Int) →
          d ≤ d2)) :=
  ⟨by decide,
    nextGEQ_correct [[(7, 1)]]
      [([97], ⟨0, (buildBuffer 0 [[(7, 1)]]).length, 1⟩)] [97] 1 [] []
      (loadBlockMetaData ([] ++ buildMetaRows 0 [[(7, 1)]] ++ []))
      (buildBuffer 0 [[(7, 1)]]) [] [] 0
      (by decide) (by decide) (by decide) (by decide) rfl (by decide)
      (by decide) (by decide) (by simp) (by decide) (7, 1) (by decide)⟩

set_option maxRecDepth 100000 in
/-- C7 (refuted): on the specification's 130-posting example list with
block lastDocIDs 64, 128 and 130, the in-range lookups behave as the
claim states (target 100 yields (100, 1), target 129 yields (129, 1)),
but for target 131 — beyond the last docID — `nextGEQ` does not return
the EndOfList marker: the `while (listRestLength >= 0)` loop admits one
iteration too many and reads `blockMetaDataVec[3]`, one entry past the
list's block range 0..2 — an out-of-range `std::vector` access when, as
here, the list's blocks are the last ones in blockMetaData, and a read
of a foreign list's entry otherwise. -/
theorem nextGEQ_reads_past_block_range :
    nextGEQ ([98], openList [98] demoLex demoBuf) 100 demoVec demoLex =
      some (100, 1) ∧
    nextGEQ ([98], openList [98] demoLex demoBuf) 129 demoVec demoLex =
      some (129, 1) ∧
    demoVec.length = 3 ∧
    nextGEQAux ([98], openList [98] demoLex demoBuf) 131 demoVec demoLex =
      (none, [0, 1, 2, 3]) ∧
    (3 : Nat) ∉ List.range demoVec.length := by
  decide

/-- C10: `nextGEQ` is stateless and deterministic: a session of calls on
one opened list, block-metadata vector and lexicon returns, for each
target, exactly the value of a standalone `nextGEQ` call with that
target — the i-th result depends only on the i-th target and the three
(const-reference) arguments — and the final calls of two sessions that
end in the same target agree whatever targets came before. -/
theorem nextGEQ_stateless (invertedList : Term × List Nat)
    (vec : List BlockMeta) (lex : List (Term × LexiconEntry))
    (ts ts1 ts2 : List Int) (t : Int) :
    runNextGEQCalls invertedList vec lex ts =
      ts.map (fun s => nextGEQ invertedList s vec lex) ∧
    (runNextGEQCalls invertedList vec lex (ts1 ++ [t])).getLast? =
      (runNextGEQCalls invertedList vec lex (ts2 ++ [t])).getLast? := by
  have hmap : ∀ xs : List Int, runNextGEQCalls invertedList vec lex xs =
      xs.map (fun s => nextGEQ invertedList s vec lex) := by
    intro xs
    induction xs with
    | nil => rfl
    | cons x xs ih => rw [runNextGEQCalls, ih, List.map_cons]
  refine ⟨hmap ts, ?_⟩
  rw [hmap, hmap, List.map_append, List.map_append]
  simp [List.getLast?_append]

end WSE
